import Mathlib

/-!
# The super-chunk container of `blosc/schunk.c`

A shallow embedding of `schunk.c` and the properties of its container.

Conventions of the embedding.

* A buffer is a `List Nat` of bytes; a byte that the code stores is reduced
  modulo 256 where the C type does so.
* A function whose C body reads or writes outside a buffer has no defined
  result there: it returns `none`.  Every result the code does produce is
  `some _`.
* `int`, `int16_t`, `int32_t` values are `Int`, reduced to their width where
  the code converts (`toInt16`, `toInt32`); `size_t` and the unsigned fields
  are `Nat`.  The 64-bit counters of the container are `Int`, not reduced.
* `blosc_compress` and `blosc_decompress` live in `blosc.c`, outside this
  file: they are fields of `Backend`, as is the content `heap n` of a fresh
  `malloc` block of `n` bytes, which C leaves indeterminate.
-/

namespace Blosc2

/-! ## Machine integers -/

/-- Conversion of an integer to `int16_t` (two's complement). -/
def toInt16 (z : Int) : Int := (z + 2 ^ 15) % 2 ^ 16 - 2 ^ 15

/-- Conversion of an integer to `int32_t` / `int` (two's complement). -/
def toInt32 (z : Int) : Int := (z + 2 ^ 31) % 2 ^ 32 - 2 ^ 31

/-- Conversion of an integer to `uint16_t`. -/
def toUInt16 (z : Int) : Nat := (z % 2 ^ 16).toNat

/-- Conversion of an integer to `size_t` (64 bits). -/
def toSizeT (z : Int) : Nat := (z % 2 ^ 64).toNat

/-! ## Constants of `blosc.h` -/

/-- Modelled from the spec: `BLOSC_MAX_FILTERS` of `blosc.h`, the number of
slots of a filter pipeline (five 3-bit slots in one 16-bit integer). -/
def BLOSC_MAX_FILTERS : Nat := 5

/-- Modelled from the spec: filter identifier `BLOSC_NOSHUFFLE` of `blosc.h`. -/
def BLOSC_NOSHUFFLE : Nat := 0

/-- Modelled from the spec: filter identifier `BLOSC_SHUFFLE` of `blosc.h`. -/
def BLOSC_SHUFFLE : Nat := 1

/-- Modelled from the spec: filter identifier `BLOSC_BITSHUFFLE` of `blosc.h`. -/
def BLOSC_BITSHUFFLE : Nat := 2

/-- Modelled from the spec: filter identifier `BLOSC_DELTA` of `blosc.h`, the
last of the four defined identifiers none, byte-shuffle, bit-shuffle, delta. -/
def BLOSC_DELTA : Nat := 3

/-! ## Data model -/

/-- The `schunk_params` of `blosc.h`: `filters` is the array
`uint8_t filters[BLOSC_MAX_FILTERS]`. -/
structure schunk_params where
  filters : List Nat
  filt_info : Nat
  compressor : Nat
  clevel : Nat
deriving DecidableEq, Repr

/-- The `schunk_header` of `blosc.h`: `data` is the array of chunk buffers,
`nchunks`, `nbytes`, `cbytes` are the `int64_t` counters. -/
structure schunk_header where
  version : Nat
  filters : Nat
  filt_info : Nat
  compressor : Nat
  clevel : Nat
  nchunks : Int
  nbytes : Int
  cbytes : Int
  data : List (List Nat)
  metadata : Option (List Nat)
  userdata : Option (List Nat)
deriving DecidableEq, Repr

/-- The functions of `blosc.c` that `schunk.c` calls, the size of the
header structure, and the heap.  A call returns its `int` result and the
bytes it stored at the start of the destination buffer; `none` is a call
with no result.  `heap n` is the content that a fresh block of `n` bytes
happens to hold: C leaves it indeterminate, so it is a parameter. -/
structure Backend where
  sizeof_schunk_header : Nat
  heap : Nat → List Nat
  blosc_compress : (clevel : Nat) → (doshuffle : Nat) → (typesize : Nat) →
    (nbytes : Nat) → (src : List Nat) → (destsize : Nat) → Option (Int × List Nat)
  blosc_decompress : (src : List Nat) → (destsize : Nat) → Option (Int × List Nat)

/-! ## Memory -/

/-- A block of `n` bytes as `malloc` returns it: `n` bytes of whatever
the heap holds (`B.heap n`, completed with zero bytes when it is shorter). -/
def malloc (B : Backend) (n : Nat) : List Nat := (B.heap n ++ List.replicate n 0).take n

/-- The destination buffer after a callee stored `written` at its start;
`none` when the callee wrote past the end of the buffer. -/
def store (dest written : List Nat) : Option (List Nat) :=
  if written.length ≤ dest.length then some (written ++ dest.drop written.length)
  else none

/-- The chunk array after `realloc(data, n * sizeof(void*))`: the entries
that fit are kept; an added entry is unspecified in C, the empty buffer here. -/
def realloc (data : List (List Nat)) (n : Nat) : List (List Nat) :=
  data.take n ++ List.replicate (n - data.length) []

/-- The value of `*(int32_t*)(buf + off)`, little-endian. -/
def read_int32 (buf : List Nat) (off : Nat) : Option Int :=
  if off + 4 ≤ buf.length then
    some (toInt32 ((buf.getD off 0 + 256 * buf.getD (off + 1) 0
      + 65536 * buf.getD (off + 2) 0 + 16777216 * buf.getD (off + 3) 0 : Nat) : Int))
  else none

/-- The value of `((uint32_t*)buf)[i]`, little-endian. -/
def read_uint32 (buf : List Nat) (i : Nat) : Option Nat :=
  if 4 * i + 4 ≤ buf.length then
    some ((buf.getD (4 * i) 0 + 256 * buf.getD (4 * i + 1) 0
      + 65536 * buf.getD (4 * i + 2) 0 + 16777216 * buf.getD (4 * i + 3) 0) % 2 ^ 32)
  else none

/-- The buffer after `((uint32_t*)buf)[i] = w`, little-endian. -/
def write_uint32 (buf : List Nat) (i : Nat) (w : Nat) : Option (List Nat) :=
  if 4 * i + 4 ≤ buf.length then
    some ((((buf.set (4 * i) (w % 256)).set (4 * i + 1) (w / 256 % 256)).set
      (4 * i + 2) (w / 65536 % 256)).set (4 * i + 3) (w / 16777216 % 256))
  else none

/-- The value of `buf[i]` for a byte buffer. -/
def read_uint8 (buf : List Nat) (i : Nat) : Option Nat := buf.get? i

/-- The buffer after `buf[i] = b` for a byte `b`. -/
def write_uint8 (buf : List Nat) (i : Nat) (b : Nat) : Option (List Nat) :=
  if i < buf.length then some (buf.set i b) else none

/-- The value of `data[i]` for an `int` or `int64_t` index into the chunk
array: `none` outside the array, a negative index included. -/
def chunk_at (data : List (List Nat)) (i : Int) : Option (List Nat) :=
  match i with
  | Int.ofNat k => data.get? k
  | Int.negSucc _ => none

/-! ## `encode_filters`, `decode_filters` (schunk.c 46-69) -/

/-- One iteration of the loop of `encode_filters`:
`enc_filters += params->filters[i] << (i * 3)` on an `int16_t`. -/
def encode_filters_step (params : schunk_params) (enc_filters : Int) (i : Nat) : Int :=
  toInt16 (enc_filters + ((params.filters.getD i 0 % 256 * 2 ^ (i * 3) : Nat) : Int))

/-- The function `encode_filters`: the loop over the `BLOSC_MAX_FILTERS`
slots, and the conversion of the `int16_t` sum to the `uint16_t` result. -/
def encode_filters (params : schunk_params) : Nat :=
  toUInt16 ((List.range BLOSC_MAX_FILTERS).foldl (encode_filters_step params) 0)

/-- The loop of `decode_filters` with `fuel` slots left:
`filters[i] = enc_filters & 0b11; enc_filters >>= 3`. -/
def decode_filters_loop : Nat → Nat → List Nat
  | 0, _ => []
  | fuel + 1, enc_filters => (enc_filters % 4) :: decode_filters_loop fuel (enc_filters / 8)

/-- The function `decode_filters` on its `uint16_t` argument: the array of
`BLOSC_MAX_FILTERS` bytes it returns. -/
def decode_filters (enc_filters : Nat) : List Nat :=
  decode_filters_loop BLOSC_MAX_FILTERS (enc_filters % 2 ^ 16)

/-! ## `blosc2_new_schunk` (schunk.c 73-87) -/

/-- The function `blosc2_new_schunk`: a zeroed header (`calloc`) with the
fields the body assigns; `data = malloc(0)` is the empty chunk array. -/
def blosc2_new_schunk (B : Backend) (params : schunk_params) : schunk_header :=
  { version := 0
    filters := encode_filters params
    filt_info := params.filt_info
    compressor := params.compressor
    clevel := params.clevel
    data := []
    nbytes := 0
    cbytes := (B.sizeof_schunk_header : Int)
    nchunks := 0
    metadata := none
    userdata := none }

/-! ## The delta filter (schunk.c 112-163) -/

/-- Body of the first loop of `delta_encoder32`:
`ui32dest[i] = ui32src[i] - ui32dref[i]`. -/
def delta_encoder32_word (src dref dest : List Nat) (i : Nat) : Option (List Nat) :=
  match read_uint32 src i, read_uint32 dref i with
  | some s, some r => write_uint32 dest i ((s + 2 ^ 32 - r) % 2 ^ 32)
  | _, _ => none

/-- Body of the second loop of `delta_encoder32`: `dest[i] = src[i]`. -/
def delta_encoder32_byte (src dest : List Nat) (i : Nat) : Option (List Nat) :=
  match read_uint8 src i with
  | some b => write_uint8 dest i b
  | none => none

/-- The function `delta_encoder32`: the `int` it returns and the content of
`dest` afterwards. -/
def delta_encoder32 (B : Backend) (sc_header : schunk_header) (nbytes : Nat)
    (src dest : List Nat) : Option (Int × List Nat) :=
  match chunk_at sc_header.data 0 with
  | none => none
  | some ref =>
    match B.blosc_decompress ref nbytes with
    | none => none
    | some (cbytes, written) =>
      match store (malloc B nbytes) written with
      | none => none
      | some dref =>
        if cbytes < 0 then some (cbytes, dest)
        else
          match (List.range (nbytes / 4)).foldlM (delta_encoder32_word src dref) dest with
          | none => none
          | some dest1 =>
            match (List.range' (nbytes / 4 * 4) (nbytes - nbytes / 4 * 4)).foldlM
                (delta_encoder32_byte src) dest1 with
            | none => none
            | some dest2 => some (toInt32 nbytes, dest2)

/-- Body of the loop of `delta_decoder32`: `ui32src[i] += ui32dref[i]`. -/
def delta_decoder32_word (dref src : List Nat) (i : Nat) : Option (List Nat) :=
  match read_uint32 src i, read_uint32 dref i with
  | some s, some r => write_uint32 src i ((s + r) % 2 ^ 32)
  | _, _ => none

/-- The function `delta_decoder32`: the `int` it returns and the content of
`src` afterwards. -/
def delta_decoder32 (B : Backend) (sc_header : schunk_header) (nbytes : Nat)
    (src : List Nat) : Option (Int × List Nat) :=
  match chunk_at sc_header.data 0 with
  | none => none
  | some ref =>
    match B.blosc_decompress ref nbytes with
    | none => none
    | some (nbytes2, written) =>
      match store (malloc B nbytes) written with
      | none => none
      | some dref =>
        if nbytes2 < 0 then some (-10, src)
        else
          match (List.range (nbytes / 4)).foldlM (delta_decoder32_word dref) src with
          | none => none
          | some src1 => some (toInt32 nbytes, src1)

/-! ## `blosc2_append_chunk`, `blosc2_append_buffer` (schunk.c 167-234) -/

/-- The buffer that `blosc2_append_chunk` stores: the chunk itself, or with
`copy` set the `malloc(cbytes)` block after `memcpy(chunk_copy, chunk, cbytes)`. -/
def chunk_to_store (chunk : List Nat) (cbytes : Int) (copy : Int) : Option (List Nat) :=
  if copy ≠ 0 then
    if 0 ≤ cbytes ∧ cbytes.toNat ≤ chunk.length then some (chunk.take cbytes.toNat)
    else none
  else some chunk

/-- The function `blosc2_append_chunk`: the `int` it returns and the header
afterwards.  A negative `nchunks` gives `realloc` a wrapped size and the
store `data[nchunks]` an index before the array. -/
def blosc2_append_chunk (sc_header : schunk_header) (chunk : List Nat) (copy : Int) :
    Option (Int × schunk_header) :=
  let nchunks := sc_header.nchunks
  match read_int32 chunk 4, read_int32 chunk 12 with
  | some nbytes, some cbytes =>
    match chunk_to_store chunk cbytes copy with
    | none => none
    | some stored =>
      match nchunks with
      | Int.negSucc _ => none
      | Int.ofNat n =>
        some (toInt32 (nchunks + 1),
          { sc_header with
            data := (realloc sc_header.data (n + 1)).set n stored
            nchunks := nchunks + 1
            nbytes := sc_header.nbytes + nbytes
            cbytes := sc_header.cbytes + cbytes })
  | _, _ => none

/-- Lines 220-233 of `blosc2_append_buffer`: compress `src` into the
`malloc(nbytes)` chunk buffer and append it. -/
def compress_and_append (B : Backend) (sc_header : schunk_header) (typesize nbytes : Nat)
    (src : List Nat) (enc_filters : Nat) : Option (Int × schunk_header) :=
  match B.blosc_compress sc_header.clevel enc_filters typesize nbytes src nbytes with
  | none => none
  | some (cbytes, written) =>
    match store (malloc B nbytes) written with
    | none => none
    | some chunk =>
      if cbytes < 0 then some (cbytes, sc_header)
      else blosc2_append_chunk sc_header chunk 0

/-- The function `blosc2_append_buffer`: the `int` it returns and the header
afterwards. -/
def blosc2_append_buffer (B : Backend) (sc_header : schunk_header) (typesize nbytes : Nat)
    (src : List Nat) : Option (Int × schunk_header) :=
  let enc_filters := sc_header.filters
  let filters := decode_filters enc_filters
  if filters.getD 0 0 = BLOSC_DELTA then
    if sc_header.nchunks > 0 then
      match delta_encoder32 B sc_header nbytes src (malloc B nbytes) with
      | none => none
      | some (ret, dest) =>
        if ret < 0 then some (ret, sc_header)
        else compress_and_append B sc_header typesize nbytes dest (enc_filters / 8)
    else compress_and_append B sc_header typesize nbytes src (enc_filters / 8)
  else compress_and_append B sc_header typesize nbytes src enc_filters

/-! ## `blosc2_decompress_chunk` (schunk.c 238-272) -/

/-- The function `blosc2_decompress_chunk`: the `int` it returns and the
buffer it stored in `*dest` (`none` when `*dest` is left as it was). -/
def blosc2_decompress_chunk (B : Backend) (sc_header : schunk_header) (nchunk : Int) :
    Option (Int × Option (List Nat)) :=
  let nchunks := sc_header.nchunks
  let filters := decode_filters sc_header.filters
  if nchunk ≥ nchunks then some (-10, none)
  else
    match chunk_at sc_header.data nchunk with
    | none => none
    | some src =>
      match read_int32 src 4 with
      | none => none
      | some nbytes =>
        match B.blosc_decompress src (toSizeT nbytes) with
        | none => none
        | some (chunksize, written) =>
          match store (malloc B (toSizeT nbytes)) written with
          | none => none
          | some dest =>
            if chunksize < 0 then some (chunksize, some dest)
            else if chunksize ≠ nbytes then some (-11, some dest)
            else if filters.getD 0 0 = BLOSC_DELTA ∧ sc_header.nchunks > 0 then
              match delta_decoder32 B sc_header (toSizeT nbytes) dest with
              | none => none
              | some (_, dest1) => some (chunksize, some dest1)
            else some (chunksize, some dest)

/-! ## A reference backend -/

/-- The four bytes of a 32-bit value, little-endian. -/
def le32 (w : Nat) : List Nat :=
  [w % 256, w / 256 % 256, w / 65536 % 256, w / 16777216 % 256]

/-- Compressor of the reference backend: a 16-byte chunk header (version,
backend version, flags, typesize, uncompressed size, block size, compressed
size) followed by the source without its leading zero bytes.  It returns 0
and stores nothing when the chunk does not fit in `destsize` bytes or a size
does not fit its 32-bit field. -/
def ref_compress (_clevel doshuffle typesize nbytes : Nat) (src : List Nat)
    (destsize : Nat) : Option (Int × List Nat) :=
  let payload := (src.take nbytes).dropWhile (fun b => b == 0)
  let cbytes := 16 + payload.length
  if cbytes ≤ destsize ∧ nbytes < 2 ^ 31 ∧ cbytes < 2 ^ 31 then
    some ((cbytes : Int),
      [2, 1, doshuffle % 256, typesize % 256] ++ le32 nbytes ++ le32 nbytes ++ le32 cbytes
        ++ payload)
  else some (0, [])

/-- Decompressor of the reference backend: it fails with -1 on a chunk
without a readable header or whose plaintext does not fit in `destsize`
bytes, and otherwise stores the plaintext and returns its size. -/
def ref_decompress (src : List Nat) (destsize : Nat) : Option (Int × List Nat) :=
  match read_int32 src 4, read_int32 src 12 with
  | some nbytes, some cbytes =>
    if 0 ≤ nbytes ∧ nbytes.toNat ≤ destsize ∧ 16 ≤ cbytes then
      let payload := (src.drop 16).take (cbytes.toNat - 16)
      some (nbytes, (List.replicate (nbytes.toNat - payload.length) 0 ++ payload).take
        nbytes.toNat)
    else some (-1, [])
  | _, _ => some (-1, [])

/-- The reference backend, with a header structure of 64 bytes and a heap
whose fresh blocks hold zero bytes. -/
def refBackend : Backend :=
  { sizeof_schunk_header := 64
    heap := fun _ => []
    blosc_compress := ref_compress
    blosc_decompress := ref_decompress }

/-- A backend none of whose calls has a result: code that returns a result
with it has not called it. -/
def noBackend : Backend :=
  { sizeof_schunk_header := 64
    heap := fun _ => []
    blosc_compress := fun _ _ _ _ _ _ => none
    blosc_decompress := fun _ _ => none }

/-! ## Vocabulary of the properties -/

/-- The largest value of an `int`. -/
def INT_MAX : Int := 2 ^ 31 - 1

/-- The uncompressed size a chunk records at header bytes 4-7 (0 for a
buffer too short to hold them). -/
def chunk_nbytes (chunk : List Nat) : Int := (read_int32 chunk 4).getD 0

/-- The compressed size a chunk records at header bytes 12-15 (0 for a
buffer too short to hold them). -/
def chunk_cbytes (chunk : List Nat) : Int := (read_int32 chunk 12).getD 0

/-- Every call of the backend returns, and stores at most `destsize` bytes
in its destination. -/
def Backend.Safe (B : Backend) : Prop :=
  (∀ clevel doshuffle typesize nbytes src destsize, ∃ r w,
    B.blosc_compress clevel doshuffle typesize nbytes src destsize = some (r, w)
      ∧ w.length ≤ destsize) ∧
  (∀ src destsize, ∃ r w,
    B.blosc_decompress src destsize = some (r, w) ∧ w.length ≤ destsize)

/-- The backend round trip: a chunk that `blosc_compress` made of the bytes
`src` (a positive result, stored in a buffer of `destsize` bytes)
decompresses into a destination of the size of `src` to `src`. -/
def Backend.RoundTrip (B : Backend) : Prop :=
  ∀ (clevel doshuffle typesize : Nat) (src : List Nat) (destsize : Nat) (cb : Int)
    (w chunk : List Nat),
    (∀ b ∈ src, b < 256) →
    B.blosc_compress clevel doshuffle typesize src.length src destsize = some (cb, w) →
    0 < cb → store (malloc B destsize) w = some chunk →
    B.blosc_decompress chunk src.length = some ((src.length : Int), src)

/-- The accounting invariant of a container. -/
def Accounted (B : Backend) (sc : schunk_header) : Prop :=
  sc.nchunks = (sc.data.length : Int) ∧
  sc.nbytes = (sc.data.map chunk_nbytes).sum ∧
  sc.cbytes = (B.sizeof_schunk_header : Int) + (sc.data.map chunk_cbytes).sum

/-- The containers reachable from `blosc2_new_schunk` by calls of
`blosc2_append_chunk` and successful calls of `blosc2_append_buffer`. -/
inductive Reachable (B : Backend) : schunk_header → Prop
  | new (params : schunk_params) : Reachable B (blosc2_new_schunk B params)
  | append_chunk (sc sc1 : schunk_header) (chunk : List Nat) (copy r : Int) :
      Reachable B sc →
      blosc2_append_chunk sc chunk copy = some (r, sc1) → Reachable B sc1
  | append_buffer (sc sc1 : schunk_header) (typesize nbytes : Nat) (src : List Nat) (r : Int) :
      Reachable B sc → blosc2_append_buffer B sc typesize nbytes src = some (r, sc1) →
      0 ≤ r → Reachable B sc1

/-- The reachable containers in which every chunk appended with the copy
flag recorded a compressed size of at least 16, the size of the chunk
header: `memcpy` then keeps header bytes 4-7 and 12-15 in the stored copy. -/
inductive ReachableHeaderKept (B : Backend) : schunk_header → Prop
  | new (params : schunk_params) : ReachableHeaderKept B (blosc2_new_schunk B params)
  | append_chunk (sc sc1 : schunk_header) (chunk : List Nat) (copy r : Int) :
      ReachableHeaderKept B sc → (copy ≠ 0 → 16 ≤ chunk_cbytes chunk) →
      blosc2_append_chunk sc chunk copy = some (r, sc1) → ReachableHeaderKept B sc1
  | append_buffer (sc sc1 : schunk_header) (typesize nbytes : Nat) (src : List Nat) (r : Int) :
      ReachableHeaderKept B sc →
      blosc2_append_buffer B sc typesize nbytes src = some (r, sc1) →
      0 ≤ r → ReachableHeaderKept B sc1

/-- What an append leaves as it was: the configuration fields, and every
chunk stored below the old chunk count. -/
def Frame (sc sc1 : schunk_header) : Prop :=
  sc1.version = sc.version ∧ sc1.filters = sc.filters ∧ sc1.filt_info = sc.filt_info ∧
  sc1.compressor = sc.compressor ∧ sc1.clevel = sc.clevel ∧
  ∀ (i : Nat) (c : List Nat), (i : Int) < sc.nchunks → chunk_at sc.data i = some c →
    chunk_at sc1.data i = some c

/-- The value of 32-bit word `i` of a buffer, little-endian. -/
def word32 (buf : List Nat) (i : Nat) : Nat :=
  (buf.getD (4 * i) 0 + 256 * buf.getD (4 * i + 1) 0
    + 65536 * buf.getD (4 * i + 2) 0 + 16777216 * buf.getD (4 * i + 3) 0) % 2 ^ 32

/-! ## Concrete containers -/

/-- Pipeline delta first, then byte-shuffle. -/
def params_delta : schunk_params :=
  { filters := [BLOSC_DELTA, BLOSC_SHUFFLE, 0, 0, 0], filt_info := 0, compressor := 0, clevel := 5 }

/-- Pipeline without filters. -/
def params_none : schunk_params :=
  { filters := [0, 0, 0, 0, 0], filt_info := 0, compressor := 0, clevel := 5 }

/-- A buffer of eight 32-bit words: six zero words, then 1 and 2. -/
def buffer_a : List Nat := List.replicate 24 0 ++ [1, 0, 0, 0, 2, 0, 0, 0]

/-- The chunk the reference backend makes of `buffer_a` with filter code 1
and typesize 4, in its 32-byte buffer. -/
def chunk_a : List Nat :=
  [2, 1, 1, 4, 32, 0, 0, 0, 32, 0, 0, 0, 24, 0, 0, 0, 1, 0, 0, 0, 2, 0, 0, 0,
    0, 0, 0, 0, 0, 0, 0, 0]

/-- The delta container holding `chunk_a` as its chunk 0. -/
def schunk_a : schunk_header :=
  { version := 0, filters := 11, filt_info := 0, compressor := 0, clevel := 5,
    nchunks := 1, nbytes := 32, cbytes := 88, data := [chunk_a],
    metadata := none, userdata := none }

/-- A buffer of eight 32-bit words: six zero words, then 6 and 7. -/
def buffer_b : List Nat := List.replicate 24 0 ++ [6, 0, 0, 0, 7, 0, 0, 0]

/-- A buffer of four 32-bit words: three zero words, then 7. -/
def buffer_short : List Nat := List.replicate 12 0 ++ [7, 0, 0, 0]

/-- The chunk the reference backend makes of `buffer_short` with filter code
1 and typesize 4: its plaintext is shorter than the plaintext of `chunk_a`. -/
def chunk_short : List Nat :=
  [2, 1, 1, 4, 16, 0, 0, 0, 16, 0, 0, 0, 20, 0, 0, 0, 7, 0, 0, 0]

/-- The container `schunk_a` after `chunk_short` was appended as chunk 1. -/
def schunk_a_short : schunk_header :=
  { schunk_a with nchunks := 2, nbytes := 48, cbytes := 108, data := [chunk_a, chunk_short] }

/-! ## Vocabulary of the delta round trip -/

/-- The chunk header of the backend: a chunk that `blosc_compress` made of
the bytes `src` (a positive result, stored in a buffer of `destsize` bytes)
records the size of `src` at header bytes 4-7. -/
def Backend.RecordsSize (B : Backend) : Prop :=
  ∀ (clevel doshuffle typesize : Nat) (src : List Nat) (destsize : Nat) (cb : Int)
    (w chunk : List Nat),
    B.blosc_compress clevel doshuffle typesize src.length src destsize = some (cb, w) →
    0 < cb → store (malloc B destsize) w = some chunk →
    read_int32 chunk 4 = some (src.length : Int)

/-- The backend compressed `s` into the `n`-byte chunk buffer of
`blosc2_append_buffer`: the call that a container created with `params` and
a delta-first pipeline makes returned a positive size. -/
def Compressed (B : Backend) (params : schunk_params) (typesize n : Nat) (s : List Nat) : Prop :=
  ∃ cb w, B.blosc_compress params.clevel (encode_filters params / 8) typesize n s n
    = some (cb, w) ∧ 0 < cb

/-- The first append to a container created with `params`: `a` is a buffer
of `n` bytes, `blosc2_append_buffer` returned the container `sc1`, and the
backend compressed `a`. -/
def AppendedFirst (B : Backend) (params : schunk_params) (typesize n : Nat) (a : List Nat)
    (sc1 : schunk_header) : Prop :=
  a.length = n ∧ (∀ x ∈ a, x < 256)
  ∧ (∃ r, blosc2_append_buffer B (blosc2_new_schunk B params) typesize n a = some (r, sc1))
  ∧ Compressed B params typesize n a

/-- A later append to a container `sc`: `b` is a buffer of `n` bytes,
`blosc2_append_buffer` returned the container `sc2`, and the backend
compressed the output of `delta_encoder32`. -/
def AppendedNext (B : Backend) (params : schunk_params) (typesize n : Nat) (sc : schunk_header)
    (b : List Nat) (sc2 : schunk_header) : Prop :=
  b.length = n ∧ (∀ x ∈ b, x < 256)
  ∧ (∃ r, blosc2_append_buffer B sc typesize n b = some (r, sc2))
  ∧ (∀ ret eb, delta_encoder32 B sc n b (malloc B n) = some (ret, eb) →
      Compressed B params typesize n eb)

/-- The containers built from `blosc2_new_schunk B params` by appending
byte buffers of `n` bytes with `blosc2_append_buffer`, each compressed by the
backend, and the list of the buffers appended, in order. -/
inductive DeltaBuilt (B : Backend) (params : schunk_params) (typesize n : Nat) :
    List (List Nat) → schunk_header → Prop
  | first (a : List Nat) (sc1 : schunk_header) :
      AppendedFirst B params typesize n a sc1 → DeltaBuilt B params typesize n [a] sc1
  | next (bufs : List (List Nat)) (sc sc2 : schunk_header) (b : List Nat) :
      DeltaBuilt B params typesize n bufs sc → AppendedNext B params typesize n sc b sc2 →
      DeltaBuilt B params typesize n (bufs ++ [b]) sc2

/-- A buffer of 32 non-zero bytes: the reference backend does not compress it. -/
def buffer_dense : List Nat := List.range' 1 32

/-- A buffer of 31 bytes: six zero words, the word `0xFFFFFFFA`, and
three more bytes. -/
def buffer_c : List Nat := List.replicate 24 0 ++ [250, 255, 255, 255, 7, 9, 3]

/-- The chunk the reference backend makes of `buffer_c` with filter code 1
and typesize 4, in its 31-byte buffer. -/
def chunk_c : List Nat :=
  [2, 1, 1, 4, 31, 0, 0, 0, 31, 0, 0, 0, 23, 0, 0, 0, 250, 255, 255, 255, 7, 9, 3,
    0, 0, 0, 0, 0, 0, 0, 0]

/-- The delta container holding `chunk_c` as its chunk 0. -/
def schunk_c : schunk_header :=
  { version := 0, filters := 11, filt_info := 0, compressor := 0, clevel := 5,
    nchunks := 1, nbytes := 31, cbytes := 87, data := [chunk_c],
    metadata := none, userdata := none }

/-- A buffer of 31 bytes: six zero words, the word 1, and three more bytes. -/
def buffer_d : List Nat := List.replicate 24 0 ++ [1, 0, 0, 0, 200, 100, 50]

/-- The chunk the reference backend makes of the delta of `buffer_b` against
`buffer_a`, in its 32-byte buffer. -/
def chunk_b : List Nat :=
  [2, 1, 1, 4, 32, 0, 0, 0, 32, 0, 0, 0, 24, 0, 0, 0, 5, 0, 0, 0, 5, 0, 0, 0,
    0, 0, 0, 0, 0, 0, 0, 0]

/-- The container `schunk_a` after `buffer_b` was appended as chunk 1. -/
def schunk_ab : schunk_header :=
  { schunk_a with nchunks := 2, nbytes := 64, cbytes := 112, data := [chunk_a, chunk_b] }

/-- The container without filters after `buffer_dense` was appended: its
chunk 0 is the chunk buffer as `malloc` returned it. -/
def schunk_dense : schunk_header :=
  { version := 0, filters := 0, filt_info := 0, compressor := 0, clevel := 5,
    nchunks := 1, nbytes := 0, cbytes := 64, data := [malloc refBackend 32],
    metadata := none, userdata := none }

/-! ## Bit-shuffle kernels

The kernels `bshuf_trans_bit_elem_scal`, `bshuf_untrans_bit_elem_scal`
(`bitshuffle-generic.c`) and `bitshuffle_neon`, `bitunshuffle_neon`
(`bitshuffle-neon.c`) are called by `tests/test_bitshuffle_roundtrip_neon.c`
as `kernel(in, out, num_elements, type_size, tmp_buf)`; their bodies are
described by the specification only. -/

/-- Modelled from the spec: bit `m` of a byte buffer, the bits of a byte
numbered from its least significant bit; the kernels of `bitshuffle-generic.c`
and `bitshuffle-neon.c` are missing, and this is the bit granularity of their
bit-matrix transpose. -/
def bit_at (buf : List Nat) (m : Nat) : Nat := buf.getD (m / 8) 0 / 2 ^ (m % 8) % 2

/-- Modelled from the spec: the buffer of `nbytes` bytes whose bit `m` is
`f m`; the missing kernels write their result as such a buffer. -/
def pack_bits (nbytes : Nat) (f : Nat → Nat) : List Nat :=
  (List.range nbytes).map (fun i =>
    f (8 * i) % 2 + 2 * (f (8 * i + 1) % 2) + 4 * (f (8 * i + 2) % 2)
      + 8 * (f (8 * i + 3) % 2) + 16 * (f (8 * i + 4) % 2) + 32 * (f (8 * i + 5) % 2)
      + 64 * (f (8 * i + 6) % 2) + 128 * (f (8 * i + 7) % 2))

/-- Modelled from the spec: the full bit-matrix transpose of the missing
kernels: `src` holds a matrix of `rows` rows of `cols` bits, row after row,
and the result holds its transpose, `cols` rows of `rows` bits. -/
def bit_transpose (rows cols : Nat) (src : List Nat) : List Nat :=
  pack_bits (rows * cols / 8) (fun m => bit_at src (m % rows * cols + m / rows))

/-- Modelled from the spec: the missing scalar kernel
`bshuf_trans_bit_elem_scal(in, out, size, elem_size, tmp_buf)`, the forward
bit-shuffle: the transpose of the matrix whose rows are the `size` elements
of `8 * elem_size` bits. -/
def bshuf_trans_bit_elem_scal (src : List Nat) (size elem_size : Nat) : List Nat :=
  bit_transpose size (8 * elem_size) src

/-- Modelled from the spec: the missing scalar kernel
`bshuf_untrans_bit_elem_scal(in, out, size, elem_size, tmp_buf)`, the inverse
bit-shuffle: the transpose of the matrix of `8 * elem_size` rows of `size`
bits. -/
def bshuf_untrans_bit_elem_scal (src : List Nat) (size elem_size : Nat) : List Nat :=
  bit_transpose (8 * elem_size) size src

/-- Modelled from the spec: the missing accelerated kernel
`bitshuffle_neon(in, out, size, elem_size, tmp_buf)`; every implementation of
an operation produces the output of the operation, byte for byte, the
remainder of the vector width included. -/
def bitshuffle_neon (src : List Nat) (size elem_size : Nat) : List Nat :=
  bit_transpose size (8 * elem_size) src

/-- Modelled from the spec: the missing accelerated kernel
`bitunshuffle_neon(in, out, size, elem_size, tmp_buf)`, with the output of the
inverse bit-shuffle. -/
def bitunshuffle_neon (src : List Nat) (size elem_size : Nat) : List Nat :=
  bit_transpose (8 * elem_size) size src

/-- A chunk buffer of 16 bytes whose header records an uncompressed size
of 8 and a compressed size of 12, less than the size of the header. -/
def chunk_cut : List Nat := [2, 1, 0, 4, 8, 0, 0, 0, 8, 0, 0, 0, 12, 0, 0, 0]

/-- The container without filters after `chunk_cut` was appended with the
copy flag: the stored chunk is the first 12 bytes of `chunk_cut`. -/
def schunk_cut : schunk_header :=
  { version := 0, filters := 0, filt_info := 0, compressor := 0, clevel := 5,
    nchunks := 1, nbytes := 8, cbytes := 76, data := [[2, 1, 0, 4, 8, 0, 0, 0, 8, 0, 0, 0]],
    metadata := none, userdata := none }

/-! ## Filter pipeline code -/

/-- C2, at the failing input: the pipeline `[4, 0, 0, 0, 0]` fits the 3-bit
fields and is encoded as 4, and `decode_filters` returns slot 0 as 0: the
mask `0b11` drops the third bit of the field. -/
theorem decode_filters_drops_third_bit :
    encode_filters { filters := [4, 0, 0, 0, 0], filt_info := 0, compressor := 0, clevel := 0 } = 4
    ∧ decode_filters 4 = [0, 0, 0, 0, 0]
    ∧ decode_filters (encode_filters
        { filters := [4, 5, 6, 7, 1], filt_info := 0, compressor := 0, clevel := 0 })
      = [0, 1, 2, 3, 1] := by
  decide

/-! ## Out-of-range index -/

/-- C7: for every backend, container and index with `index >= nchunks`,
`blosc2_decompress_chunk` returns -10 and leaves `*dest` as it was; this
holds for a backend none of whose calls returns, so no call was made. -/
theorem decompress_chunk_out_of_range (B : Backend) (sc : schunk_header) (nchunk : Int)
    (h : sc.nchunks ≤ nchunk) :
    blosc2_decompress_chunk B sc nchunk = some (-10, none)
    ∧ blosc2_decompress_chunk noBackend sc nchunk = some (-10, none) := by
  simp [blosc2_decompress_chunk, h]

/-- Witness of C7: the empty container at index 0. -/
theorem decompress_chunk_out_of_range_witness :
    (blosc2_new_schunk noBackend params_delta).nchunks ≤ 0
    ∧ blosc2_decompress_chunk noBackend (blosc2_new_schunk noBackend params_delta) 0
      = some (-10, none) :=
  ⟨by decide, (decompress_chunk_out_of_range noBackend
    (blosc2_new_schunk noBackend params_delta) 0 (by decide)).1⟩


theorem realloc_length (data : List (List Nat)) (n : Nat) : (realloc data n).length = n := by
  simp [realloc]; omega

theorem realloc_succ_set (data : List (List Nat)) (x : List Nat) :
    (realloc data (data.length + 1)).set data.length x = data ++ [x] := by
  simp [realloc, List.take_of_length_le]

theorem chunk_at_natCast (data : List (List Nat)) (k : Nat) :
    chunk_at data (k : Int) = data.get? k := rfl

theorem chunk_at_realloc_set_self (data : List (List Nat)) (n : Nat) (x : List Nat) :
    chunk_at ((realloc data (n + 1)).set n x) (n : Int) = some x := by
  rw [chunk_at_natCast]
  simp [List.getElem?_set, realloc_length]

theorem chunk_at_realloc_set_below (data : List (List Nat)) (n i : Nat) (x c : List Nat)
    (hi : i < n) (hc : chunk_at data (i : Int) = some c) :
    chunk_at ((realloc data (n + 1)).set n x) (i : Int) = some c := by
  rw [chunk_at_natCast] at hc ⊢
  have hlen : i < data.length := by
    by_contra hcon
    rw [List.get?_eq_getElem?, List.getElem?_eq_none (Nat.le_of_not_lt hcon)] at hc
    exact absurd hc (by simp)
  have hne : n ≠ i := by omega
  simp [List.getElem?_set, hne, realloc] 
  rw [List.getElem?_append_left (by simp; omega)]
  simp [List.getElem?_take, show i < n + 1 by omega] 
  simpa using hc

theorem append_chunk_of (sc : schunk_header) (chunk : List Nat) (copy : Int) (n : Nat)
    (nb cb : Int) (stored : List Nat) (hn : sc.nchunks = (n : Int))
    (h4 : read_int32 chunk 4 = some nb) (h12 : read_int32 chunk 12 = some cb)
    (hs : chunk_to_store chunk cb copy = some stored) :
    blosc2_append_chunk sc chunk copy = some (toInt32 ((n : Int) + 1),
      { sc with
        data := (realloc sc.data (n + 1)).set n stored
        nchunks := (n : Int) + 1
        nbytes := sc.nbytes + nb
        cbytes := sc.cbytes + cb }) := by
  unfold blosc2_append_chunk
  simp only [h4, h12, hs, hn]

theorem append_chunk_some (sc sc1 : schunk_header) (chunk : List Nat) (copy r : Int)
    (h : blosc2_append_chunk sc chunk copy = some (r, sc1)) :
    ∃ (n : Nat) (nb cb : Int) (stored : List Nat),
      sc.nchunks = (n : Int) ∧ read_int32 chunk 4 = some nb ∧ read_int32 chunk 12 = some cb ∧
      chunk_to_store chunk cb copy = some stored ∧ r = toInt32 ((n : Int) + 1) ∧
      sc1 = { sc with
        data := (realloc sc.data (n + 1)).set n stored
        nchunks := (n : Int) + 1
        nbytes := sc.nbytes + nb
        cbytes := sc.cbytes + cb } := by
  unfold blosc2_append_chunk at h
  cases h4 : read_int32 chunk 4 with
  | none => simp [h4] at h
  | some nb =>
    cases h12 : read_int32 chunk 12 with
    | none => simp [h4, h12] at h
    | some cb =>
      cases hs : chunk_to_store chunk cb copy with
      | none => simp [h4, h12, hs] at h
      | some stored =>
        cases hn : sc.nchunks with
        | negSucc k => simp [h4, h12, hs, hn] at h
        | ofNat n =>
          simp only [h4, h12, hs, hn, Option.some.injEq, Prod.mk.injEq] at h
          refine ⟨n, nb, cb, stored, ?_, ?_, ?_, ?_, h.1.symm, h.2.symm⟩ <;>
            first | rfl | assumption

theorem toInt32_of_range (z : Int) (h0 : -2 ^ 31 ≤ z) (h1 : z < 2 ^ 31) : toInt32 z = z := by
  unfold toInt32
  omega

theorem read_int32_isSome (buf : List Nat) (off : Nat) (h : off + 4 ≤ buf.length) :
    ∃ v, read_int32 buf off = some v := by
  unfold read_int32
  simp [h]

theorem read_int32_chunk_nbytes (chunk : List Nat) (h : 8 ≤ chunk.length) :
    read_int32 chunk 4 = some (chunk_nbytes chunk) := by
  obtain ⟨v, hv⟩ := read_int32_isSome chunk 4 (by omega)
  simp [chunk_nbytes, hv]

theorem read_int32_chunk_cbytes (chunk : List Nat) (h : 16 ≤ chunk.length) :
    read_int32 chunk 12 = some (chunk_cbytes chunk) := by
  obtain ⟨v, hv⟩ := read_int32_isSome chunk 12 (by omega)
  simp [chunk_cbytes, hv]

/-- C4: on a container with `nchunks = n`, with `n + 1` within `int`, and a
chunk buffer that holds the 16-byte header (with the copy flag: whose
recorded compressed size lies within the buffer), `blosc2_append_chunk`
returns `n + 1`, sets `nchunks` to `n + 1` and stores at index `n` the chunk
itself without the copy flag and its first compressed-size bytes with it. -/
theorem append_chunk_returns_count (sc : schunk_header) (chunk : List Nat) (copy : Int)
    (n : Nat) (hn : sc.nchunks = (n : Int)) (hfit : (n : Int) + 1 ≤ INT_MAX)
    (hlen : 16 ≤ chunk.length)
    (hcopy : copy ≠ 0 → 0 ≤ chunk_cbytes chunk ∧ (chunk_cbytes chunk).toNat ≤ chunk.length) :
    ∃ sc1, blosc2_append_chunk sc chunk copy = some ((n : Int) + 1, sc1)
      ∧ sc1.nchunks = (n : Int) + 1
      ∧ sc1.data.length = n + 1
      ∧ chunk_at sc1.data (n : Int)
        = some (if copy ≠ 0 then chunk.take (chunk_cbytes chunk).toNat else chunk) := by
  have hs : chunk_to_store chunk (chunk_cbytes chunk) copy
      = some (if copy ≠ 0 then chunk.take (chunk_cbytes chunk).toNat else chunk) := by
    unfold chunk_to_store
    by_cases hc : copy = 0
    · simp [hc]
    · simp [hc, hcopy hc]
  have h := append_chunk_of sc chunk copy n _ _ _ hn
    (read_int32_chunk_nbytes chunk (by omega)) (read_int32_chunk_cbytes chunk hlen) hs
  rw [toInt32_of_range _ (by omega) (by unfold INT_MAX at hfit; omega)] at h
  exact ⟨_, h, rfl, by simp [realloc_length], chunk_at_realloc_set_self _ _ _⟩

/-- Witness of C4: `chunk_a` appended with the copy flag to the container
that holds it already. -/
theorem append_chunk_returns_count_witness :
    ∃ sc1, blosc2_append_chunk schunk_a chunk_a 1 = some (((1 : Nat) : Int) + 1, sc1)
      ∧ sc1.nchunks = ((1 : Nat) : Int) + 1
      ∧ sc1.data.length = 1 + 1
      ∧ chunk_at sc1.data ((1 : Nat) : Int)
        = some (if (1 : Int) ≠ 0 then chunk_a.take (chunk_cbytes chunk_a).toNat else chunk_a) :=
  append_chunk_returns_count schunk_a chunk_a 1 1 (by decide) (by decide) (by decide)
    (by decide)

theorem store_length (dest w out : List Nat) (h : store dest w = some out) :
    out.length = dest.length := by
  unfold store at h
  split at h
  · simp only [Option.some.injEq] at h
    subst h
    simp
    omega
  · simp at h

theorem malloc_length (B : Backend) (n : Nat) : (malloc B n).length = n := by
  simp [malloc]

theorem compress_and_append_some (B : Backend) (sc sc1 : schunk_header) (typesize nbytes : Nat)
    (src : List Nat) (enc : Nat) (r : Int)
    (h : compress_and_append B sc typesize nbytes src enc = some (r, sc1)) :
    ∃ cb w chunk, B.blosc_compress sc.clevel enc typesize nbytes src nbytes = some (cb, w)
      ∧ store (malloc B nbytes) w = some chunk
      ∧ ((cb < 0 ∧ r = cb ∧ sc1 = sc)
        ∨ (0 ≤ cb ∧ blosc2_append_chunk sc chunk 0 = some (r, sc1))) := by
  unfold compress_and_append at h
  cases hc : B.blosc_compress sc.clevel enc typesize nbytes src nbytes with
  | none => simp [hc] at h
  | some p =>
    obtain ⟨cb, w⟩ := p
    cases hs : store (malloc B nbytes) w with
    | none => simp [hc, hs] at h
    | some chunk =>
      simp only [hc, hs] at h
      refine ⟨cb, w, chunk, rfl, hs, ?_⟩
      by_cases hneg : cb < 0
      · simp only [hneg, if_true, Option.some.injEq, Prod.mk.injEq] at h
        exact Or.inl ⟨hneg, h.1.symm, h.2.symm⟩
      · simp only [hneg, if_false] at h
        exact Or.inr ⟨by omega, h⟩

theorem append_buffer_some (B : Backend) (sc sc1 : schunk_header) (typesize nbytes : Nat)
    (src : List Nat) (r : Int)
    (h : blosc2_append_buffer B sc typesize nbytes src = some (r, sc1)) :
    (r < 0 ∧ sc1 = sc ∧ ∃ dest, delta_encoder32 B sc nbytes src (malloc B nbytes) = some (r, dest))
    ∨ (r < 0 ∧ sc1 = sc ∧ ∃ s enc w,
        B.blosc_compress sc.clevel enc typesize nbytes s nbytes = some (r, w))
    ∨ ∃ chunk, chunk.length = nbytes ∧ blosc2_append_chunk sc chunk 0 = some (r, sc1) := by
  have key : ∀ (s : List Nat) (enc : Nat),
      compress_and_append B sc typesize nbytes s enc = some (r, sc1) →
      (r < 0 ∧ sc1 = sc ∧ ∃ s enc w,
        B.blosc_compress sc.clevel enc typesize nbytes s nbytes = some (r, w))
      ∨ ∃ chunk, chunk.length = nbytes ∧ blosc2_append_chunk sc chunk 0 = some (r, sc1) := by
    intro s enc hca
    obtain ⟨cb, w, chunk, hcall, hst, hcase⟩ := compress_and_append_some B sc sc1 _ _ _ _ _ hca
    rcases hcase with ⟨hneg, hr, hsc⟩ | ⟨_, happ⟩
    · subst hr
      exact Or.inl ⟨hneg, hsc, s, enc, w, hcall⟩
    · exact Or.inr ⟨chunk, by rw [store_length _ _ _ hst, malloc_length], happ⟩
  unfold blosc2_append_buffer at h
  simp only at h
  split at h
  · split at h
    · cases hd : delta_encoder32 B sc nbytes src (malloc B nbytes) with
      | none => simp [hd] at h
      | some p =>
        obtain ⟨ret, dest⟩ := p
        simp only [hd] at h
        by_cases hneg : ret < 0
        · simp only [hneg, if_true, Option.some.injEq, Prod.mk.injEq] at h
          obtain ⟨hr, hsc⟩ := h
          subst hr
          exact Or.inl ⟨hneg, hsc.symm, dest, rfl⟩
        · simp only [hneg, if_false] at h
          exact Or.inr (key _ _ h)
    · exact Or.inr (key _ _ h)
  · exact Or.inr (key _ _ h)

theorem chunk_to_store_some (chunk stored : List Nat) (cb copy : Int)
    (h : chunk_to_store chunk cb copy = some stored) :
    (copy = 0 ∧ stored = chunk)
    ∨ (copy ≠ 0 ∧ 0 ≤ cb ∧ cb.toNat ≤ chunk.length ∧ stored = chunk.take cb.toNat) := by
  unfold chunk_to_store at h
  by_cases hc : copy = 0
  · simp [hc] at h
    exact Or.inl ⟨hc, h.symm⟩
  · by_cases hr : 0 ≤ cb ∧ cb.toNat ≤ chunk.length
    · simp [hc, hr] at h
      exact Or.inr ⟨hc, hr.1, hr.2, h.symm⟩
    · simp only [ne_eq, hc, not_false_eq_true, if_true, hr, if_false] at h
      exact absurd h (by simp)

theorem getD_take (l : List Nat) (k i : Nat) (h : i < k) :
    (l.take k).getD i 0 = l.getD i 0 := by
  simp [List.getD_eq_getElem?_getD, List.getElem?_take, h]

theorem read_int32_take (chunk : List Nat) (k off : Nat) (hk : off + 4 ≤ k)
    (hlen : k ≤ chunk.length) :
    read_int32 (chunk.take k) off = read_int32 chunk off := by
  unfold read_int32
  have h1 : off + 4 ≤ (chunk.take k).length := by simp; omega
  have h2 : off + 4 ≤ chunk.length := by omega
  simp only [h1, h2, if_true]
  rw [getD_take _ _ _ (by omega), getD_take _ _ _ (by omega), getD_take _ _ _ (by omega),
    getD_take _ _ _ (by omega)]

theorem accounted_new (B : Backend) (params : schunk_params) :
    Accounted B (blosc2_new_schunk B params) := by
  simp [Accounted, blosc2_new_schunk]

theorem accounted_append_chunk (B : Backend) (sc sc1 : schunk_header) (chunk : List Nat)
    (copy r : Int) (hacc : Accounted B sc) (hv : copy ≠ 0 → 16 ≤ chunk_cbytes chunk)
    (h : blosc2_append_chunk sc chunk copy = some (r, sc1)) : Accounted B sc1 := by
  obtain ⟨n, nb, cb, stored, hn, h4, h12, hs, _, hsc⟩ := append_chunk_some sc sc1 chunk copy r h
  obtain ⟨hcount, hnb, hcb⟩ := hacc
  have hlen : n = sc.data.length := by omega
  have hnb' : chunk_nbytes chunk = nb := by simp [chunk_nbytes, h4]
  have hcb' : chunk_cbytes chunk = cb := by simp [chunk_cbytes, h12]
  have hstored : chunk_nbytes stored = nb ∧ chunk_cbytes stored = cb := by
    rcases chunk_to_store_some chunk stored cb copy hs with ⟨_, rfl⟩ | ⟨hc, h0, hle, rfl⟩
    · exact ⟨hnb', hcb'⟩
    · have h16 : 16 ≤ cb.toNat := by
        have := hv hc
        omega
      constructor
      · rw [chunk_nbytes, read_int32_take _ _ _ (by omega) hle]
        exact hnb'
      · rw [chunk_cbytes, read_int32_take _ _ _ (by omega) hle]
        exact hcb'
  subst hsc
  subst hlen
  simp only [Accounted, realloc_succ_set, List.map_append, List.sum_append, List.length_append,
    List.map_cons, List.map_nil, List.sum_cons, List.sum_nil, List.length_cons, List.length_nil,
    hstored.1, hstored.2, hnb, hcb]
  refine ⟨by push_cast; omega, by omega, by omega⟩

theorem count_append_chunk (sc sc1 : schunk_header) (chunk : List Nat) (copy r : Int)
    (h : blosc2_append_chunk sc chunk copy = some (r, sc1)) :
    sc1.nchunks = (sc1.data.length : Int) := by
  obtain ⟨n, nb, cb, stored, hn, _, _, _, _, hsc⟩ := append_chunk_some sc sc1 chunk copy r h
  subst hsc
  simp [realloc_length]

theorem reachable_count (B : Backend) (sc : schunk_header) (h : Reachable B sc) :
    sc.nchunks = (sc.data.length : Int) := by
  induction h with
  | new params => simp [blosc2_new_schunk]
  | append_chunk sc sc1 chunk copy r _ happ _ =>
    exact count_append_chunk sc sc1 chunk copy r happ
  | append_buffer sc sc1 typesize nbytes src r _ happ hr ih =>
    rcases append_buffer_some B sc sc1 typesize nbytes src r happ with
      ⟨hneg, _⟩ | ⟨hneg, _⟩ | ⟨chunk, _, hc⟩
    · omega
    · omega
    · exact count_append_chunk sc sc1 chunk 0 r hc

/-- C3, amended: every container reachable from `blosc2_new_schunk` by calls
of `blosc2_append_chunk` and successful calls of `blosc2_append_buffer` has
`nchunks` equal to the number of stored chunks; when every chunk appended
with the copy flag recorded a compressed size of at least 16, it also has
`nbytes` equal to the sum of the sizes recorded at header bytes 4-7 of the
stored chunks and `cbytes` equal to the size of the header structure plus
the sum of the sizes recorded at their header bytes 12-15. -/
theorem reachable_accounted (B : Backend) (sc : schunk_header) :
    (Reachable B sc → sc.nchunks = (sc.data.length : Int))
    ∧ (ReachableHeaderKept B sc →
        sc.nchunks = (sc.data.length : Int)
        ∧ sc.nbytes = (sc.data.map chunk_nbytes).sum
        ∧ sc.cbytes = (B.sizeof_schunk_header : Int) + (sc.data.map chunk_cbytes).sum) := by
  refine ⟨reachable_count B sc, ?_⟩
  intro h
  induction h with
  | new params => exact accounted_new B params
  | append_chunk sc sc1 chunk copy r _ hv happ ih =>
    exact accounted_append_chunk B sc sc1 chunk copy r ih hv happ
  | append_buffer sc sc1 typesize nbytes src r _ happ hr ih =>
    rcases append_buffer_some B sc sc1 typesize nbytes src r happ with
      ⟨hneg, _⟩ | ⟨hneg, _⟩ | ⟨chunk, _, hc⟩
    · omega
    · omega
    · exact accounted_append_chunk B sc sc1 chunk 0 r ih (by simp) hc

/-- C3, counterexample: a 16-byte chunk buffer that records a compressed
size of 12 is appended with the copy flag to a new container; the call
returns 1 and adds 12 to `cbytes`, and the stored copy has 12 bytes, so
that no stored chunk has header bytes 12-15 whose sum could be that 12. -/
theorem reachable_not_accounted :
    Reachable refBackend schunk_cut
    ∧ blosc2_append_chunk (blosc2_new_schunk refBackend params_none) chunk_cut 1
      = some (1, schunk_cut)
    ∧ schunk_cut.data = [chunk_cut.take 12]
    ∧ read_int32 (chunk_cut.take 12) 12 = none
    ∧ schunk_cut.cbytes = 76
    ∧ ¬ (schunk_cut.cbytes
        = (refBackend.sizeof_schunk_header : Int) + (schunk_cut.data.map chunk_cbytes).sum) :=
  ⟨Reachable.append_chunk (blosc2_new_schunk refBackend params_none) schunk_cut chunk_cut 1 1
      (Reachable.new params_none) (by decide),
    by decide⟩

theorem store_malloc_isSome (B : Backend) (n : Nat) (w : List Nat) (h : w.length ≤ n) :
    ∃ out, store (malloc B n) w = some out ∧ out.length = n := by
  have h1 : store (malloc B n) w = some (w ++ (malloc B n).drop w.length) := by
    unfold store
    rw [if_pos (by rw [malloc_length]; exact h)]
  exact ⟨_, h1, by rw [store_length _ _ _ h1, malloc_length]⟩

theorem delta_encoder32_reference_failure (B : Backend) (sc : schunk_header) (nbytes : Nat)
    (src dest ref w : List Nat) (code : Int) (href : chunk_at sc.data 0 = some ref)
    (hd : B.blosc_decompress ref nbytes = some (code, w)) (hw : w.length ≤ nbytes)
    (hcode : code < 0) :
    delta_encoder32 B sc nbytes src dest = some (code, dest) := by
  obtain ⟨dref, hst, _⟩ := store_malloc_isSome B nbytes w hw
  unfold delta_encoder32
  simp only [href, hd, hst, hcode, if_true]

theorem frame_append_chunk (sc sc1 : schunk_header) (chunk : List Nat) (copy r : Int)
    (h : blosc2_append_chunk sc chunk copy = some (r, sc1)) : Frame sc sc1 := by
  obtain ⟨n, nb, cb, stored, hn, _, _, _, _, hsc⟩ := append_chunk_some sc sc1 chunk copy r h
  subst hsc
  refine ⟨rfl, rfl, rfl, rfl, rfl, ?_⟩
  intro i c hi hc
  exact chunk_at_realloc_set_below sc.data n i stored c (by omega) hc

theorem frame_refl (sc : schunk_header) : Frame sc sc :=
  ⟨rfl, rfl, rfl, rfl, rfl, fun _ _ _ hc => hc⟩

/-- C5: a call of `blosc2_append_chunk` or of `blosc2_append_buffer` leaves
the version, the encoded filter pipeline, `filt_info`, the compressor and
the level as they were, and leaves every chunk stored at an index below the
old `nchunks` at that index with the same bytes. -/
theorem append_frame (B : Backend) (sc sc1 : schunk_header) (r : Int)
    (h : (∃ chunk copy, blosc2_append_chunk sc chunk copy = some (r, sc1))
      ∨ (∃ typesize nbytes src, blosc2_append_buffer B sc typesize nbytes src = some (r, sc1))) :
    sc1.version = sc.version ∧ sc1.filters = sc.filters ∧ sc1.filt_info = sc.filt_info
    ∧ sc1.compressor = sc.compressor ∧ sc1.clevel = sc.clevel
    ∧ ∀ (i : Nat) (c : List Nat), (i : Int) < sc.nchunks → chunk_at sc.data i = some c →
        chunk_at sc1.data i = some c := by
  rcases h with ⟨chunk, copy, h⟩ | ⟨typesize, nbytes, src, h⟩
  · exact frame_append_chunk sc sc1 chunk copy r h
  · rcases append_buffer_some B sc sc1 typesize nbytes src r h with
      ⟨_, hsc, _⟩ | ⟨_, hsc, _⟩ | ⟨chunk, _, hc⟩
    · subst hsc
      exact frame_refl sc1
    · subst hsc
      exact frame_refl sc1
    · exact frame_append_chunk sc sc1 chunk 0 r hc

theorem append_buffer_outcome (B : Backend) (sc sc1 : schunk_header) (typesize nbytes : Nat)
    (src : List Nat) (r : Int) (hcount : sc.nchunks = (sc.data.length : Int))
    (hfit : sc.nchunks + 1 ≤ INT_MAX)
    (h : blosc2_append_buffer B sc typesize nbytes src = some (r, sc1)) :
    (r < 0 → sc1 = sc
      ∧ ((∃ dest, delta_encoder32 B sc nbytes src (malloc B nbytes) = some (r, dest))
        ∨ ∃ s enc w, B.blosc_compress sc.clevel enc typesize nbytes s nbytes = some (r, w)))
    ∧ (0 ≤ r → ∃ chunk, sc1.data = sc.data ++ [chunk] ∧ sc1.nchunks = sc.nchunks + 1
        ∧ sc1.nbytes = sc.nbytes + chunk_nbytes chunk
        ∧ sc1.cbytes = sc.cbytes + chunk_cbytes chunk)
    ∧ (∀ ref code w, (decode_filters sc.filters).getD 0 0 = BLOSC_DELTA → sc.nchunks > 0 →
        chunk_at sc.data 0 = some ref → B.blosc_decompress ref nbytes = some (code, w) →
        w.length ≤ nbytes → code < 0 → r = code ∧ sc1 = sc) := by
  have hpos : ∀ chunk, blosc2_append_chunk sc chunk 0 = some (r, sc1) →
      0 ≤ r ∧ sc1.data = sc.data ++ [chunk] ∧ sc1.nchunks = sc.nchunks + 1
        ∧ sc1.nbytes = sc.nbytes + chunk_nbytes chunk
        ∧ sc1.cbytes = sc.cbytes + chunk_cbytes chunk := by
    intro chunk hc
    obtain ⟨n, nb, cb, stored, hn, h4, h12, hs, hr, hsc⟩ := append_chunk_some sc sc1 chunk 0 r hc
    have hstored : stored = chunk := by
      rcases chunk_to_store_some chunk stored cb 0 hs with ⟨_, hst⟩ | ⟨hne, _⟩
      · exact hst
      · exact absurd rfl hne
    have hlen : n = sc.data.length := by omega
    have hr' : r = (n : Int) + 1 := by
      rw [hr]
      exact toInt32_of_range _ (by omega) (by unfold INT_MAX at hfit; omega)
    subst hsc hstored hlen
    refine ⟨by omega, realloc_succ_set _ _, by simp [hn], ?_, ?_⟩
    · simp [chunk_nbytes, h4]
    · simp [chunk_cbytes, h12]
  refine ⟨?_, ?_, ?_⟩
  · intro hneg
    rcases append_buffer_some B sc sc1 typesize nbytes src r h with
      ⟨_, hsc, hcause⟩ | ⟨_, hsc, hcause⟩ | ⟨chunk, _, hc⟩
    · exact ⟨hsc, Or.inl hcause⟩
    · exact ⟨hsc, Or.inr hcause⟩
    · have := (hpos chunk hc).1
      omega
  · intro hnn
    rcases append_buffer_some B sc sc1 typesize nbytes src r h with
      ⟨hneg, _⟩ | ⟨hneg, _⟩ | ⟨chunk, _, hc⟩
    · omega
    · omega
    · exact ⟨chunk, (hpos chunk hc).2⟩
  · intro ref code w hdelta hn href hd hw hcode
    have henc := delta_encoder32_reference_failure B sc nbytes src (malloc B nbytes) ref w code
      href hd hw hcode
    unfold blosc2_append_buffer at h
    simp only [hdelta, hn, if_true, henc, hcode, Option.some.injEq, Prod.mk.injEq] at h
    exact ⟨h.1.symm, h.2.symm⟩

theorem foldlM_range'_inv {α : Type} (f : α → Nat → Option α) (P : Nat → α → Prop) (n : Nat) :
    ∀ (s : Nat) (a : α), P s a →
      (∀ i b, s ≤ i → i < s + n → P i b → ∃ b', f b i = some b' ∧ P (i + 1) b') →
      ∃ a', (List.range' s n).foldlM f a = some a' ∧ P (s + n) a' := by
  induction n with
  | zero =>
    intro s a h0 _
    exact ⟨a, by simp [List.range', pure], by simpa using h0⟩
  | succ n ih =>
    intro s a h0 hstep
    obtain ⟨b, hb, hPb⟩ := hstep s a (Nat.le_refl s) (by omega) h0
    obtain ⟨a', ha', hPa'⟩ := ih (s + 1) b hPb (fun i c hi1 hi2 hP =>
      hstep i c (by omega) (by omega) hP)
    refine ⟨a', ?_, ?_⟩
    · simp only [List.range', List.foldlM, bind, Option.bind, hb]
      simpa using ha'
    · have : s + (n + 1) = s + 1 + n := by omega
      rw [this]
      exact hPa'

theorem foldlM_range_inv {α : Type} (f : α → Nat → Option α) (P : Nat → α → Prop) (n : Nat)
    (a : α) (h0 : P 0 a)
    (hstep : ∀ i b, i < n → P i b → ∃ b', f b i = some b' ∧ P (i + 1) b') :
    ∃ a', (List.range n).foldlM f a = some a' ∧ P n a' := by
  have h := foldlM_range'_inv f P n 0 a h0 (fun i b _ hi hP => hstep i b (by omega) hP)
  rw [List.range_eq_range']
  simpa using h

theorem getD_set (l : List Nat) (j k b : Nat) :
    (l.set j b).getD k 0 = if j = k ∧ k < l.length then b else l.getD k 0 := by
  simp only [List.getD_eq_getElem?_getD, List.getElem?_set]
  by_cases hjk : j = k
  · subst hjk
    by_cases hlt : j < l.length
    · simp [hlt]
    · simp [hlt, List.getElem?_eq_none (Nat.le_of_not_lt hlt)]
  · simp [hjk]

theorem read_uint32_eq (buf : List Nat) (i : Nat) (h : 4 * i + 4 ≤ buf.length) :
    read_uint32 buf i = some (word32 buf i) := by
  simp [read_uint32, word32, h]

theorem word32_lt (buf : List Nat) (i : Nat) : word32 buf i < 2 ^ 32 := by
  unfold word32
  exact Nat.mod_lt _ (by norm_num)

theorem getD_set4 (l : List Nat) (p a b c d : Nat) (h : p + 4 ≤ l.length) :
    let out := (((l.set p a).set (p + 1) b).set (p + 2) c).set (p + 3) d
    out.getD p 0 = a ∧ out.getD (p + 1) 0 = b ∧ out.getD (p + 2) 0 = c
      ∧ out.getD (p + 3) 0 = d
      ∧ ∀ j, (j < p ∨ p + 4 ≤ j) → out.getD j 0 = l.getD j 0 := by
  have h0 : p < l.length := by omega
  have h1 : p + 1 < l.length := by omega
  have h2 : p + 2 < l.length := by omega
  have h3 : p + 3 < l.length := by omega
  refine ⟨?_, ?_, ?_, ?_, ?_⟩
  · simp [getD_set, h0]
  · simp [getD_set, h1]
  · simp [getD_set, h2]
  · simp [getD_set, h3]
  · intro j hj
    have e0 : ¬ (p = j) := by omega
    have e1 : ¬ (p + 1 = j) := by omega
    have e2 : ¬ (p + 2 = j) := by omega
    have e3 : ¬ (p + 3 = j) := by omega
    simp [getD_set, e0, e1, e2, e3]

theorem write_uint32_some (buf : List Nat) (i w : Nat) (h : 4 * i + 4 ≤ buf.length) :
    ∃ out, write_uint32 buf i w = some out ∧ out.length = buf.length
      ∧ word32 out i = w % 2 ^ 32
      ∧ ∀ j, (j < 4 * i ∨ 4 * i + 4 ≤ j) → out.getD j 0 = buf.getD j 0 := by
  obtain ⟨g0, g1, g2, g3, g4⟩ := getD_set4 buf (4 * i) (w % 256) (w / 256 % 256)
    (w / 65536 % 256) (w / 16777216 % 256) h
  refine ⟨(((buf.set (4 * i) (w % 256)).set (4 * i + 1) (w / 256 % 256)).set
      (4 * i + 2) (w / 65536 % 256)).set (4 * i + 3) (w / 16777216 % 256),
    by simp only [write_uint32, h, if_true], by simp, ?_, g4⟩
  unfold word32
  rw [g0, g1, g2, g3]
  omega

theorem word32_congr (a b : List Nat) (i : Nat)
    (h : ∀ j, 4 * i ≤ j → j < 4 * i + 4 → a.getD j 0 = b.getD j 0) :
    word32 a i = word32 b i := by
  unfold word32
  rw [h (4 * i) (by omega) (by omega), h (4 * i + 1) (by omega) (by omega),
    h (4 * i + 2) (by omega) (by omega), h (4 * i + 3) (by omega) (by omega)]

theorem delta_encoder32_word_loop (src dref dest : List Nat) (k : Nat)
    (hs : 4 * k ≤ src.length) (hr : 4 * k ≤ dref.length) (hd : 4 * k ≤ dest.length) :
    ∃ out, (List.range k).foldlM (delta_encoder32_word src dref) dest = some out
      ∧ out.length = dest.length
      ∧ (∀ i, i < k → word32 out i = (word32 src i + 2 ^ 32 - word32 dref i) % 2 ^ 32)
      ∧ (∀ j, 4 * k ≤ j → out.getD j 0 = dest.getD j 0) := by
  have h := foldlM_range_inv (delta_encoder32_word src dref)
    (fun i d => d.length = dest.length
      ∧ (∀ i', i' < i → word32 d i' = (word32 src i' + 2 ^ 32 - word32 dref i') % 2 ^ 32)
      ∧ (∀ j, 4 * i ≤ j → d.getD j 0 = dest.getD j 0)) k dest
    ⟨rfl, fun _ hi => absurd hi (Nat.not_lt_zero _), fun _ _ => rfl⟩
    (by
      intro i d hi ⟨hlen, hwords, hrest⟩
      obtain ⟨out, hout, holen, hword, hother⟩ := write_uint32_some d i
        ((word32 src i + 2 ^ 32 - word32 dref i) % 2 ^ 32) (by omega)
      refine ⟨out, ?_, by omega, ?_, ?_⟩
      · simp only [delta_encoder32_word, read_uint32_eq src i (by omega),
          read_uint32_eq dref i (by omega), hout]
      · intro i' hi'
        by_cases he : i' = i
        · subst he
          rw [hword, Nat.mod_mod]
        · rw [← hwords i' (by omega)]
          exact word32_congr _ _ _ (fun j _ hj2 => hother j (Or.inl (by omega)))
      · intro j hj
        rw [hother j (Or.inr (by omega))]
        exact hrest j (by omega))
  obtain ⟨out, h1, h2, h3, h4⟩ := h
  exact ⟨out, h1, h2, h3, h4⟩

theorem delta_encoder32_byte_loop (src dest : List Nat) (s n : Nat)
    (hs : s + n ≤ src.length) (hd : s + n ≤ dest.length) :
    ∃ out, (List.range' s n).foldlM (delta_encoder32_byte src) dest = some out
      ∧ out.length = dest.length
      ∧ (∀ j, j < s → out.getD j 0 = dest.getD j 0)
      ∧ (∀ j, s ≤ j → j < s + n → out.get? j = src.get? j) := by
  have h := foldlM_range'_inv (delta_encoder32_byte src)
    (fun i d => d.length = dest.length
      ∧ (∀ j, j < s → d.getD j 0 = dest.getD j 0)
      ∧ (∀ j, s ≤ j → j < i → d.get? j = src.get? j)) n s dest
    ⟨rfl, fun _ _ => rfl, fun j h1 h2 => absurd h1 (by omega)⟩
    (by
      intro i d hi1 hi2 ⟨hlen, hlow, hdone⟩
      have hsrc : read_uint8 src i = some (src.getD i 0) := by
        simp [read_uint8, List.getD_eq_getElem?_getD, List.getElem?_eq_getElem (show i < src.length by omega)]
      refine ⟨d.set i (src.getD i 0), ?_, by simp [hlen], ?_, ?_⟩
      · simp only [delta_encoder32_byte, hsrc, write_uint8, show i < d.length by omega, if_true]
      · intro j hj
        rw [getD_set, if_neg (by omega)]
        exact hlow j hj
      · intro j hj1 hj2
        by_cases he : j = i
        · subst he
          simp [List.getElem?_set, show j < d.length by omega,
            List.getD_eq_getElem?_getD, List.getElem?_eq_getElem (show j < src.length by omega)]
        · rw [← hdone j hj1 (by omega)]
          simp [List.getElem?_set, Ne.symm he])
  exact h

theorem store_malloc_full (B : Backend) (n : Nat) (w : List Nat) (h : w.length = n) :
    store (malloc B n) w = some w := by
  unfold store
  rw [if_pos (by rw [malloc_length, h]),
    List.drop_eq_nil_of_le (by rw [malloc_length, h]), List.append_nil]

/-- C10: when chunk 0 decompresses (non-negative code) to a reference
plaintext `r` of `n` bytes, with `src` and `dest` of `n` bytes and `n` within
`int`, `delta_encoder32` returns `n` and leaves in `dest` a buffer of `n`
bytes whose 32-bit word `i` is `(src word i - r word i) mod 2^32` for every
`i < n / 4`, and whose byte `j` is byte `j` of `src` for `4 * (n / 4) <= j < n`. -/
theorem delta_encoder32_words (B : Backend) (sc : schunk_header) (n : Nat)
    (src dest ref r : List Nat) (cb : Int) (href : chunk_at sc.data 0 = some ref)
    (hd : B.blosc_decompress ref n = some (cb, r)) (hcb : 0 ≤ cb) (hr : r.length = n)
    (hsrc : src.length = n) (hdest : dest.length = n) (hn : (n : Int) ≤ INT_MAX) :
    ∃ out, delta_encoder32 B sc n src dest = some ((n : Int), out)
      ∧ out.length = n
      ∧ (∀ i, i < n / 4 →
          ((word32 out i : Nat) : Int)
            = (((word32 src i : Nat) : Int) - ((word32 r i : Nat) : Int)) % 2 ^ 32)
      ∧ (∀ j, 4 * (n / 4) ≤ j → j < n → out.get? j = src.get? j) := by
  obtain ⟨d1, hd1, hlen1, hwords1, _⟩ := delta_encoder32_word_loop src r dest (n / 4)
    (by omega) (by omega) (by omega)
  obtain ⟨d2, hd2, hlen2, hlow2, htail2⟩ := delta_encoder32_byte_loop src d1 (n / 4 * 4)
    (n - n / 4 * 4) (by omega) (by omega)
  refine ⟨d2, ?_, by omega, ?_, ?_⟩
  · unfold delta_encoder32
    simp only [href, hd, store_malloc_full B n r hr, show ¬ cb < 0 by omega, if_false, hd1, hd2]
    rw [toInt32_of_range _ (by omega) (by unfold INT_MAX at hn; omega)]
  · intro i hi
    have hw : word32 d2 i = word32 d1 i :=
      word32_congr _ _ _ (fun j _ hj2 => hlow2 j (by omega))
    rw [hw, hwords1 i hi]
    have h1 := word32_lt src i
    have h2 := word32_lt r i
    omega
  · intro j hj1 hj2
    exact htail2 j (by omega) (by omega)

theorem delta_decoder32_word_loop (dref src : List Nat) (k : Nat)
    (hs : 4 * k ≤ src.length) (hr : 4 * k ≤ dref.length) :
    ∃ out, (List.range k).foldlM (delta_decoder32_word dref) src = some out
      ∧ out.length = src.length
      ∧ (∀ i, i < k → word32 out i = (word32 src i + word32 dref i) % 2 ^ 32)
      ∧ (∀ j, 4 * k ≤ j → out.getD j 0 = src.getD j 0) := by
  have h := foldlM_range_inv (delta_decoder32_word dref)
    (fun i d => d.length = src.length
      ∧ (∀ i', i' < i → word32 d i' = (word32 src i' + word32 dref i') % 2 ^ 32)
      ∧ (∀ j, 4 * i ≤ j → d.getD j 0 = src.getD j 0)) k src
    ⟨rfl, fun _ hi => absurd hi (Nat.not_lt_zero _), fun _ _ => rfl⟩
    (by
      intro i d hi ⟨hlen, hwords, hrest⟩
      have hcur : word32 d i = word32 src i :=
        word32_congr _ _ _ (fun j hj1 _ => hrest j hj1)
      obtain ⟨out, hout, holen, hword, hother⟩ := write_uint32_some d i
        ((word32 d i + word32 dref i) % 2 ^ 32) (by omega)
      refine ⟨out, ?_, by omega, ?_, ?_⟩
      · simp only [delta_decoder32_word, read_uint32_eq d i (by omega),
          read_uint32_eq dref i (by omega), hout]
      · intro i' hi'
        by_cases he : i' = i
        · subst he
          rw [hword, Nat.mod_mod, hcur]
        · rw [← hwords i' (by omega)]
          exact word32_congr _ _ _ (fun j _ hj2 => hother j (Or.inl (by omega)))
      · intro j hj
        rw [hother j (Or.inr (by omega))]
        exact hrest j (by omega))
  exact h

theorem delta_decoder32_returns (B : Backend) (sc : schunk_header) (n : Nat)
    (src ref w : List Nat) (code : Int) (href : chunk_at sc.data 0 = some ref)
    (hd : B.blosc_decompress ref n = some (code, w)) (hw : w.length ≤ n)
    (hsrc : src.length = n) :
    ∃ ret out, delta_decoder32 B sc n src = some (ret, out) ∧ out.length = n := by
  obtain ⟨dref, hst, hdl⟩ := store_malloc_isSome B n w hw
  obtain ⟨d1, hd1, hlen1, _, _⟩ := delta_decoder32_word_loop dref src (n / 4)
    (by omega) (by omega)
  unfold delta_decoder32
  simp only [href, hd, hst]
  by_cases hneg : code < 0
  · exact ⟨-10, src, by simp only [hneg, if_true], hsrc⟩
  · exact ⟨toInt32 n, d1, by simp only [hneg, if_false, hd1], by omega⟩

theorem chunk_at_zero_of_some (data : List (List Nat)) (i : Int) (c : List Nat)
    (h : chunk_at data i = some c) : ∃ ref, chunk_at data 0 = some ref := by
  cases data with
  | nil =>
    cases i with
    | ofNat k => simp [chunk_at] at h
    | negSucc k => simp [chunk_at] at h
  | cons a t => exact ⟨a, rfl⟩

/-- C8: at a valid index (`nchunk < nchunks`, and a chunk `src` with a
readable header stored at `nchunk`) and with a backend whose calls return
within their buffer, `blosc2_decompress_chunk` returns the negative code of
`blosc_decompress` when that call fails, -11 when it returns a non-negative
length that differs from the size recorded at header bytes 4-7 of the
chunk, and otherwise exactly that recorded size. -/
theorem decompress_chunk_result (B : Backend) (sc : schunk_header) (nchunk : Int)
    (src w : List Nat) (chunksize : Int) (hB : B.Safe)
    (h1 : nchunk < sc.nchunks)
    (hsrc : chunk_at sc.data nchunk = some src) (hlen : 8 ≤ src.length)
    (hd : B.blosc_decompress src (toSizeT (chunk_nbytes src)) = some (chunksize, w)) :
    ∃ out, blosc2_decompress_chunk B sc nchunk
      = some (if chunksize < 0 then chunksize
          else if chunksize ≠ chunk_nbytes src then -11 else chunk_nbytes src, out) := by
  have hw : w.length ≤ toSizeT (chunk_nbytes src) := by
    obtain ⟨r', w', hcall, hle⟩ := hB.2 src (toSizeT (chunk_nbytes src))
    rw [hd] at hcall
    simp only [Option.some.injEq, Prod.mk.injEq] at hcall
    rw [hcall.2]
    exact hle
  obtain ⟨dest, hst, hdl⟩ := store_malloc_isSome B _ w hw
  unfold blosc2_decompress_chunk
  simp only [ge_iff_le, show ¬ sc.nchunks ≤ nchunk by omega, if_false, hsrc,
    read_int32_chunk_nbytes src hlen, hd, hst]
  by_cases hneg : chunksize < 0
  · exact ⟨some dest, by simp only [hneg, if_true]⟩
  · by_cases hne : chunksize = chunk_nbytes src
    · subst hne
      by_cases hdelta : (decode_filters sc.filters).getD 0 0 = BLOSC_DELTA ∧ sc.nchunks > 0
      · obtain ⟨ref, href⟩ := chunk_at_zero_of_some sc.data nchunk src hsrc
        obtain ⟨r0, w0, hcall0, hle0⟩ := hB.2 ref (toSizeT (chunk_nbytes src))
        obtain ⟨ret, out, hdec, _⟩ := delta_decoder32_returns B sc _ dest ref w0 r0 href
          hcall0 hle0 hdl
        refine ⟨some out, ?_⟩
        simp only [hneg, if_false, ne_eq, not_true_eq_false, hdelta, and_self, if_true, hdec]
      · refine ⟨some dest, ?_⟩
        simp only [hneg, if_false, ne_eq, not_true_eq_false, hdelta]
    · exact ⟨some dest, by simp only [hneg, hne, if_true, if_false, ne_eq, not_false_eq_true]⟩

theorem refBackend_safe : refBackend.Safe := by
  constructor
  · intro clevel doshuffle typesize nbytes src destsize
    simp only [refBackend, ref_compress]
    split
    · rename_i hfit
      exact ⟨_, _, rfl, by simp [le32]; omega⟩
    · exact ⟨_, _, rfl, by simp⟩
  · intro src destsize
    simp only [refBackend, ref_decompress]
    split
    · split
      · rename_i hfit
        exact ⟨_, _, rfl, by
          simp only [List.length_take]
          omega⟩
      · exact ⟨_, _, rfl, by simp⟩
    · exact ⟨_, _, rfl, by simp⟩

/-- C9, at the failing input: `chunk_short` (plaintext of 16 bytes) is
appended after `chunk_a` (plaintext of 32 bytes) in a delta container; on
fetching index 1 `delta_decoder32` cannot decompress the reference chunk 0
into 16 bytes and returns -10, and `blosc2_decompress_chunk` returns the
success length 16. -/
theorem decompress_chunk_drops_reference_failure :
    refBackend.blosc_compress 5 1 4 16 buffer_short 32 = some (20, chunk_short)
    ∧ blosc2_append_chunk schunk_a chunk_short 1 = some (2, schunk_a_short)
    ∧ refBackend.blosc_decompress chunk_a 16 = some (-1, [])
    ∧ delta_decoder32 refBackend schunk_a_short 16 buffer_short = some (-10, buffer_short)
    ∧ blosc2_decompress_chunk refBackend schunk_a_short 1 = some (16, some buffer_short) := by
  decide

/-- Witness of C3: the container made by `blosc2_new_schunk`, one
`blosc2_append_buffer` and one `blosc2_append_chunk` with the copy flag of a
chunk that records a compressed size of 20. -/
theorem reachable_accounted_witness :
    schunk_a_short.nchunks = (schunk_a_short.data.length : Int)
    ∧ schunk_a_short.nbytes = (schunk_a_short.data.map chunk_nbytes).sum
    ∧ schunk_a_short.cbytes
      = (refBackend.sizeof_schunk_header : Int) + (schunk_a_short.data.map chunk_cbytes).sum :=
  (reachable_accounted refBackend schunk_a_short).2
    (ReachableHeaderKept.append_chunk schunk_a schunk_a_short chunk_short 1 2
      (ReachableHeaderKept.append_buffer (blosc2_new_schunk refBackend params_delta) schunk_a
        4 32 buffer_a 1 (ReachableHeaderKept.new params_delta) (by decide) (by decide))
      (by decide) (by decide))

/-- Witness of C5: `chunk_short` appended to the container holding `chunk_a`. -/
theorem append_frame_witness :
    schunk_a_short.version = schunk_a.version ∧ schunk_a_short.filters = schunk_a.filters
    ∧ schunk_a_short.filt_info = schunk_a.filt_info
    ∧ schunk_a_short.compressor = schunk_a.compressor
    ∧ schunk_a_short.clevel = schunk_a.clevel
    ∧ ∀ (i : Nat) (c : List Nat), (i : Int) < schunk_a.nchunks →
        chunk_at schunk_a.data i = some c → chunk_at schunk_a_short.data i = some c :=
  append_frame refBackend schunk_a schunk_a_short 2 (Or.inl ⟨chunk_short, 1, by decide⟩)

/-- Witness of C8: fetching chunk 0 of the container holding `chunk_a`. -/
theorem decompress_chunk_result_witness :
    ∃ out, blosc2_decompress_chunk refBackend schunk_a 0
      = some (if (32 : Int) < 0 then 32
          else if (32 : Int) ≠ chunk_nbytes chunk_a then -11 else chunk_nbytes chunk_a, out) :=
  decompress_chunk_result refBackend schunk_a 0 chunk_a buffer_a 32 refBackend_safe
    (by decide) (by decide) (by decide) (by decide)

/-- Witness of C10: `buffer_b` encoded against the plaintext `buffer_a` of
chunk 0. -/
theorem delta_encoder32_words_witness :
    ∃ out, delta_encoder32 refBackend schunk_a 32 buffer_b (malloc refBackend 32)
        = some (((32 : Nat) : Int), out)
      ∧ out.length = 32
      ∧ (∀ i, i < 32 / 4 →
          ((word32 out i : Nat) : Int)
            = (((word32 buffer_b i : Nat) : Int) - ((word32 buffer_a i : Nat) : Int)) % 2 ^ 32)
      ∧ (∀ j, 4 * (32 / 4) ≤ j → j < 32 → out.get? j = buffer_b.get? j) :=
  delta_encoder32_words refBackend schunk_a 32 buffer_b (malloc refBackend 32) chunk_a buffer_a 32
    (by decide) (by decide) (by decide) (by decide) (by decide) (by decide) (by decide)

theorem le32_value (w : Nat) (h : w < 2 ^ 31) :
    toInt32 ((w % 256 + 256 * (w / 256 % 256) + 65536 * (w / 65536 % 256)
      + 16777216 * (w / 16777216 % 256) : Nat) : Int) = (w : Int) := by
  unfold toInt32
  omega

theorem dropWhile_zero_pad (l : List Nat) :
    List.replicate (l.length - (l.dropWhile (fun b => b == 0)).length) 0
      ++ l.dropWhile (fun b => b == 0) = l := by
  induction l with
  | nil => simp
  | cons a t ih =>
    by_cases ha : a = 0
    · subst ha
      have hle : (t.dropWhile (fun b => b == 0)).length ≤ t.length :=
        (List.dropWhile_sublist _).length_le
      simp only [List.dropWhile_cons, beq_self_eq_true, if_true, List.length_cons]
      rw [show t.length + 1 - (t.dropWhile (fun b => b == 0)).length
        = (t.length - (t.dropWhile (fun b => b == 0)).length) + 1 by omega]
      rw [List.replicate_succ, List.cons_append, ih]
    · simp [List.dropWhile_cons, ha]

theorem refBackend_roundtrip : refBackend.RoundTrip := by
  intro clevel doshuffle typesize src destsize cb w chunk _ hc hcb hst
  simp only [refBackend, ref_compress, List.take_length] at hc
  split at hc
  · rename_i hfit
    obtain ⟨hfit1, hfit2, hfit3⟩ := hfit
    simp only [Option.some.injEq, Prod.mk.injEq] at hc
    obtain ⟨_, hw⟩ := hc
    unfold store at hst
    split at hst
    · simp only [Option.some.injEq] at hst
      subst hst
      subst hw
      have hple : (src.dropWhile (fun b => b == 0)).length ≤ src.length :=
        (List.dropWhile_sublist _).length_le
      have h4 : read_int32
          ([2, 1, doshuffle % 256, typesize % 256] ++ le32 src.length ++ le32 src.length
            ++ le32 (16 + (src.dropWhile (fun b => b == 0)).length)
            ++ src.dropWhile (fun b => b == 0)
            ++ (malloc refBackend destsize).drop ([2, 1, doshuffle % 256, typesize % 256]
              ++ le32 src.length ++ le32 src.length
              ++ le32 (16 + (src.dropWhile (fun b => b == 0)).length)
              ++ src.dropWhile (fun b => b == 0)).length) 4 = some (src.length : Int) := by
        simp only [read_int32, le32, List.cons_append, List.nil_append, List.append_assoc,
          List.length_cons, List.getD_cons_succ, List.getD_cons_zero]
        rw [if_pos (by omega), le32_value _ hfit2]
      have h12 : read_int32
          ([2, 1, doshuffle % 256, typesize % 256] ++ le32 src.length ++ le32 src.length
            ++ le32 (16 + (src.dropWhile (fun b => b == 0)).length)
            ++ src.dropWhile (fun b => b == 0)
            ++ (malloc refBackend destsize).drop ([2, 1, doshuffle % 256, typesize % 256]
              ++ le32 src.length ++ le32 src.length
              ++ le32 (16 + (src.dropWhile (fun b => b == 0)).length)
              ++ src.dropWhile (fun b => b == 0)).length) 12
          = some ((16 + (src.dropWhile (fun b => b == 0)).length : Nat) : Int) := by
        simp only [read_int32, le32, List.cons_append, List.nil_append, List.append_assoc,
          List.length_cons, List.getD_cons_succ, List.getD_cons_zero]
        rw [if_pos (by omega), le32_value _ hfit3]
      show ref_decompress _ _ = _
      simp only [ref_decompress, h4, h12]
      rw [if_pos ⟨by omega, by simp, by omega⟩]
      simp only [Option.some.injEq, Prod.mk.injEq, true_and, Int.toNat_ofNat]
      have hpay : (List.drop 16 ([2, 1, doshuffle % 256, typesize % 256] ++ le32 src.length
            ++ le32 src.length ++ le32 (16 + (src.dropWhile (fun b => b == 0)).length)
            ++ src.dropWhile (fun b => b == 0)
            ++ (malloc refBackend destsize).drop ([2, 1, doshuffle % 256, typesize % 256]
              ++ le32 src.length ++ le32 src.length
              ++ le32 (16 + (src.dropWhile (fun b => b == 0)).length)
              ++ src.dropWhile (fun b => b == 0)).length)).take
            (16 + (src.dropWhile (fun b => b == 0)).length - 16)
          = src.dropWhile (fun b => b == 0) := by
        simp [le32]
      rw [hpay, dropWhile_zero_pad, List.take_length]
    · simp at hst
  · simp only [Option.some.injEq, Prod.mk.injEq] at hc
    omega

/-- C1, at the failing input: with a backend that round-trips, in the
container with pipeline delta then shuffle `blosc2_append_buffer` stores
`buffer_a` as chunk 0 and returns 1, the backend decompresses that chunk to
`buffer_a`, and `blosc2_decompress_chunk` at index 0 returns 32 with the
words 1 and 2 of `buffer_a` doubled to 2 and 4; without the delta filter the
same calls return `buffer_a`. -/
theorem decompress_chunk_zero_delta_doubled :
    refBackend.RoundTrip
    ∧ blosc2_append_buffer refBackend (blosc2_new_schunk refBackend params_delta) 4 32 buffer_a
      = some (1, schunk_a)
    ∧ refBackend.blosc_decompress chunk_a 32 = some (32, buffer_a)
    ∧ blosc2_decompress_chunk refBackend schunk_a 0
      = some (32, some (List.replicate 24 0 ++ [2, 0, 0, 0, 4, 0, 0, 0]))
    ∧ (blosc2_append_buffer refBackend (blosc2_new_schunk refBackend params_none) 4 32
        buffer_a).bind (fun p => blosc2_decompress_chunk refBackend p.2 0)
      = some (32, some buffer_a) :=
  ⟨refBackend_roundtrip, by decide⟩


theorem delta_encoder32_returns (B : Backend) (sc : schunk_header) (n : Nat)
    (src dest ref w : List Nat) (code : Int) (href : chunk_at sc.data 0 = some ref)
    (hd : B.blosc_decompress ref n = some (code, w)) (hw : w.length ≤ n)
    (hsrc : src.length = n) (hdest : dest.length = n) :
    ∃ ret out, delta_encoder32 B sc n src dest = some (ret, out) ∧ out.length = n := by
  obtain ⟨dref, hst, hdl⟩ := store_malloc_isSome B n w hw
  obtain ⟨d1, hd1, hlen1, _, _⟩ := delta_encoder32_word_loop src dref dest (n / 4)
    (by omega) (by omega) (by omega)
  obtain ⟨d2, hd2, hlen2, _, _⟩ := delta_encoder32_byte_loop src d1 (n / 4 * 4)
    (n - n / 4 * 4) (by omega) (by omega)
  unfold delta_encoder32
  simp only [href, hd, hst]
  by_cases hneg : code < 0
  · exact ⟨code, dest, by simp only [hneg, if_true], hdest⟩
  · exact ⟨toInt32 n, d2, by simp only [hneg, if_false, hd1, hd2], by omega⟩

theorem compress_and_append_returns (B : Backend) (sc : schunk_header) (typesize nbytes : Nat)
    (src : List Nat) (enc : Nat) (hB : B.Safe) (hcount : sc.nchunks = (sc.data.length : Int))
    (h16 : 16 ≤ nbytes) :
    ∃ r sc1, compress_and_append B sc typesize nbytes src enc = some (r, sc1) := by
  obtain ⟨cb, w, hcall, hle⟩ := hB.1 sc.clevel enc typesize nbytes src nbytes
  obtain ⟨chunk, hst, hlen⟩ := store_malloc_isSome B nbytes w hle
  unfold compress_and_append
  simp only [hcall, hst]
  by_cases hneg : cb < 0
  · exact ⟨cb, sc, by simp only [hneg, if_true]⟩
  · simp only [hneg, if_false]
    exact ⟨_, _, append_chunk_of sc chunk 0 sc.data.length _ _ chunk hcount
      (read_int32_chunk_nbytes chunk (by omega)) (read_int32_chunk_cbytes chunk (by omega))
      (by simp [chunk_to_store])⟩

theorem append_buffer_returns (B : Backend) (sc : schunk_header) (typesize nbytes : Nat)
    (src : List Nat) (hB : B.Safe) (hcount : sc.nchunks = (sc.data.length : Int))
    (hsrc : src.length = nbytes) (h16 : 16 ≤ nbytes) :
    ∃ r sc1, blosc2_append_buffer B sc typesize nbytes src = some (r, sc1) := by
  unfold blosc2_append_buffer
  simp only
  split
  · split
    · rename_i hpos
      have hne : sc.data ≠ [] := by
        intro hnil
        rw [hnil] at hcount
        simp at hcount
        omega
      obtain ⟨ref, href⟩ : ∃ ref, chunk_at sc.data 0 = some ref := by
        cases hdata : sc.data with
        | nil => exact absurd hdata hne
        | cons a t => exact ⟨a, rfl⟩
      obtain ⟨code, w, hcall, hle⟩ := hB.2 ref nbytes
      obtain ⟨ret, out, henc, _⟩ := delta_encoder32_returns B sc nbytes src (malloc B nbytes)
        ref w code href hcall hle hsrc (malloc_length B nbytes)
      simp only [henc]
      by_cases hneg : ret < 0
      · exact ⟨ret, sc, by simp only [hneg, if_true]⟩
      · simp only [hneg, if_false]
        exact compress_and_append_returns B sc typesize nbytes out _ hB hcount h16
    · exact compress_and_append_returns B sc typesize nbytes src _ hB hcount h16
  · exact compress_and_append_returns B sc typesize nbytes src _ hB hcount h16

/-- C6: on a container whose `nchunks` is the number of stored chunks, with
`nchunks + 1` within `int`, a call of `blosc2_append_buffer` that returns a
negative value leaves the whole container (chunk list, `nchunks`, `nbytes`,
`cbytes`) as it was, and that value is the one `delta_encoder32` or
`blosc_compress` returned; a call that returns another value added exactly
one chunk at the end of the list and the sizes it records to the totals; a
negative code of `blosc_decompress` on the delta reference chunk is the
value returned.  The call returns whenever the backend calls return within
their buffers, `src` has `nbytes` bytes and `nbytes` is at least 16. -/
theorem append_buffer_atomic (B : Backend) (sc : schunk_header) (typesize nbytes : Nat)
    (src : List Nat) (hcount : sc.nchunks = (sc.data.length : Int))
    (hfit : sc.nchunks + 1 ≤ INT_MAX) :
    (∀ (r : Int) (sc1 : schunk_header),
      blosc2_append_buffer B sc typesize nbytes src = some (r, sc1) →
      (r < 0 → sc1 = sc
        ∧ ((∃ dest, delta_encoder32 B sc nbytes src (malloc B nbytes) = some (r, dest))
          ∨ ∃ s enc w, B.blosc_compress sc.clevel enc typesize nbytes s nbytes = some (r, w)))
      ∧ (0 ≤ r → ∃ chunk, sc1.data = sc.data ++ [chunk] ∧ sc1.nchunks = sc.nchunks + 1
          ∧ sc1.nbytes = sc.nbytes + chunk_nbytes chunk
          ∧ sc1.cbytes = sc.cbytes + chunk_cbytes chunk)
      ∧ (∀ ref code w, (decode_filters sc.filters).getD 0 0 = BLOSC_DELTA → sc.nchunks > 0 →
          chunk_at sc.data 0 = some ref → B.blosc_decompress ref nbytes = some (code, w) →
          w.length ≤ nbytes → code < 0 → r = code ∧ sc1 = sc))
    ∧ (B.Safe → src.length = nbytes → 16 ≤ nbytes →
        ∃ r sc1, blosc2_append_buffer B sc typesize nbytes src = some (r, sc1)) :=
  ⟨fun r sc1 h => append_buffer_outcome B sc sc1 typesize nbytes src r hcount hfit h,
    fun hB hsrc h16 => append_buffer_returns B sc typesize nbytes src hB hcount hsrc h16⟩

/-- Witness of C6: a 16-byte buffer appended to the delta container whose
chunk 0 has a plaintext of 32 bytes: the reference does not fit, the call
returns -1 and the container is as before. -/
theorem append_buffer_atomic_witness :
    blosc2_append_buffer refBackend schunk_a 4 16 buffer_short = some (-1, schunk_a)
    ∧ ((-1 : Int) < 0 → schunk_a = schunk_a
      ∧ ((∃ dest, delta_encoder32 refBackend schunk_a 16 buffer_short (malloc refBackend 16)
            = some (-1, dest))
        ∨ ∃ s enc w, refBackend.blosc_compress schunk_a.clevel enc 4 16 s 16 = some (-1, w))) :=
  ⟨by decide, ((append_buffer_atomic refBackend schunk_a 4 16 buffer_short
    (by decide) (by decide)).1 (-1) schunk_a (by decide)).1⟩
/-! ## Filter pipeline code: layout -/

theorem list_length_five (l : List Nat) (h : l.length = 5) :
    ∃ a b c d e, l = [a, b, c, d, e] := by
  match l, h with
  | [a, b, c, d, e], _ => exact ⟨a, b, c, d, e, rfl⟩

theorem toInt16_of_range (z : Int) (h0 : -2 ^ 15 ≤ z) (h1 : z < 2 ^ 15) : toInt16 z = z := by
  unfold toInt16
  omega

theorem encode_filters_five (a b c d e fi co cl : Nat) (ha : a < 8) (hb : b < 8) (hc : c < 8)
    (hd : d < 8) (he : e < 8) :
    encode_filters { filters := [a, b, c, d, e], filt_info := fi, compressor := co, clevel := cl }
      = a + 8 * b + 64 * c + 512 * d + 4096 * e := by
  have hr : List.range BLOSC_MAX_FILTERS = [0, 1, 2, 3, 4] := by decide
  unfold encode_filters
  rw [hr]
  simp only [List.foldl, encode_filters_step, List.getD_cons_zero, List.getD_cons_succ]
  have h0 : toInt16 (0 + ((a % 256 * 2 ^ (0 * 3) : Nat) : Int)) = (a : Int) := by
    rw [toInt16_of_range _ (by omega) (by omega)]
    omega
  rw [h0]
  have h1 : toInt16 ((a : Int) + ((b % 256 * 2 ^ (1 * 3) : Nat) : Int))
      = ((a + 8 * b : Nat) : Int) := by
    rw [toInt16_of_range _ (by omega) (by omega)]
    omega
  rw [h1]
  have h2 : toInt16 (((a + 8 * b : Nat) : Int) + ((c % 256 * 2 ^ (2 * 3) : Nat) : Int))
      = ((a + 8 * b + 64 * c : Nat) : Int) := by
    rw [toInt16_of_range _ (by omega) (by omega)]
    omega
  rw [h2]
  have h3 : toInt16 (((a + 8 * b + 64 * c : Nat) : Int) + ((d % 256 * 2 ^ (3 * 3) : Nat) : Int))
      = ((a + 8 * b + 64 * c + 512 * d : Nat) : Int) := by
    rw [toInt16_of_range _ (by omega) (by omega)]
    omega
  rw [h3]
  have h4 : toInt16 (((a + 8 * b + 64 * c + 512 * d : Nat) : Int)
      + ((e % 256 * 2 ^ (4 * 3) : Nat) : Int))
      = ((a + 8 * b + 64 * c + 512 * d + 4096 * e : Nat) : Int) := by
    rw [toInt16_of_range _ (by omega) (by omega)]
    omega
  rw [h4]
  unfold toUInt16
  omega

theorem decode_filters_eq (enc : Nat) :
    decode_filters enc = [enc % 2 ^ 16 % 4, enc % 2 ^ 16 / 8 % 4, enc % 2 ^ 16 / 8 / 8 % 4,
      enc % 2 ^ 16 / 8 / 8 / 8 % 4, enc % 2 ^ 16 / 8 / 8 / 8 / 8 % 4] := by
  simp [decode_filters, decode_filters_loop, BLOSC_MAX_FILTERS]


theorem mem_five_lt (a b c d e k : Nat) (h : ∀ x ∈ [a, b, c, d, e], x < k) :
    a < k ∧ b < k ∧ c < k ∧ d < k ∧ e < k := by
  refine ⟨h a (by simp), h b (by simp), h c (by simp), h d (by simp), h e (by simp)⟩

/-- C16: for a pipeline of `BLOSC_MAX_FILTERS` slots with values 0..7,
`encode_filters` returns the sum of `filters[i] * 8^i`, which fits 16 bits;
slot `i` is the three bits `3i..3i+2` of the result, slot 0 in the least
significant bits; two such pipelines with the same code are equal. -/
theorem encode_filters_layout (p : schunk_params)
    (hlen : p.filters.length = BLOSC_MAX_FILTERS) (hv : ∀ x ∈ p.filters, x < 8) :
    encode_filters p = ((List.range BLOSC_MAX_FILTERS).map
        (fun i => p.filters.getD i 0 * 8 ^ i)).sum
    ∧ encode_filters p < 2 ^ 16
    ∧ (∀ i, i < BLOSC_MAX_FILTERS → encode_filters p / 2 ^ (3 * i) % 8 = p.filters.getD i 0)
    ∧ (∀ q : schunk_params, q.filters.length = BLOSC_MAX_FILTERS → (∀ x ∈ q.filters, x < 8) →
        encode_filters q = encode_filters p → q.filters = p.filters) := by
  obtain ⟨fl, fi, co, cl⟩ := p
  obtain ⟨a, b, c, d, e, rfl⟩ := list_length_five fl hlen
  obtain ⟨ha, hb, hc, hd, he⟩ := mem_five_lt a b c d e 8 hv
  have henc := encode_filters_five a b c d e fi co cl ha hb hc hd he
  have hr : List.range BLOSC_MAX_FILTERS = [0, 1, 2, 3, 4] := by decide
  refine ⟨?_, ?_, ?_, ?_⟩
  · rw [henc, hr]
    simp only [List.map, List.getD_cons_zero, List.getD_cons_succ, List.sum_cons, List.sum_nil]
    omega
  · rw [henc]
    omega
  · intro i hi
    rw [henc]
    have hi5 : i < 5 := hi
    interval_cases i <;> simp only [List.getD_cons_zero, List.getD_cons_succ] <;> omega
  · intro q hqlen hqv hq
    obtain ⟨ql, qi, qo, qc⟩ := q
    obtain ⟨a', b', c', d', e', rfl⟩ := list_length_five ql hqlen
    obtain ⟨ha', hb', hc', hd', he'⟩ := mem_five_lt a' b' c' d' e' 8 hqv
    rw [henc, encode_filters_five a' b' c' d' e' qi qo qc ha' hb' hc' hd' he'] at hq
    have e1 : a' = a := by omega
    have e2 : b' = b := by omega
    have e3 : c' = c := by omega
    have e4 : d' = d := by omega
    have e5 : e' = e := by omega
    simp only [e1, e2, e3, e4, e5]

/-- Witness of C16: the pipeline `[4, 5, 6, 7, 1]`. -/
theorem encode_filters_layout_witness :
    encode_filters { filters := [4, 5, 6, 7, 1], filt_info := 0, compressor := 0, clevel := 0 }
      < 2 ^ 16 :=
  (encode_filters_layout
    { filters := [4, 5, 6, 7, 1], filt_info := 0, compressor := 0, clevel := 0 }
    (by decide) (by decide)).2.1

/-- C18: for a pipeline of `BLOSC_MAX_FILTERS` slots that holds only the
filter identifiers 0..3, `decode_filters (encode_filters p)` is the array of
the slots of `p`. -/
theorem decode_encode_filters_defined_ids (p : schunk_params)
    (hlen : p.filters.length = BLOSC_MAX_FILTERS) (hv : ∀ x ∈ p.filters, x ≤ BLOSC_DELTA) :
    decode_filters (encode_filters p) = p.filters := by
  obtain ⟨fl, fi, co, cl⟩ := p
  obtain ⟨a, b, c, d, e, rfl⟩ := list_length_five fl hlen
  obtain ⟨ha, hb, hc, hd, he⟩ := mem_five_lt a b c d e 4
    (fun x hx => Nat.lt_succ_of_le (hv x hx))
  rw [encode_filters_five a b c d e fi co cl (by omega) (by omega) (by omega) (by omega)
    (by omega), decode_filters_eq]
  have e1 : (a + 8 * b + 64 * c + 512 * d + 4096 * e) % 2 ^ 16 % 4 = a := by omega
  have e2 : (a + 8 * b + 64 * c + 512 * d + 4096 * e) % 2 ^ 16 / 8 % 4 = b := by omega
  have e3 : (a + 8 * b + 64 * c + 512 * d + 4096 * e) % 2 ^ 16 / 8 / 8 % 4 = c := by omega
  have e4 : (a + 8 * b + 64 * c + 512 * d + 4096 * e) % 2 ^ 16 / 8 / 8 / 8 % 4 = d := by omega
  have e5 : (a + 8 * b + 64 * c + 512 * d + 4096 * e) % 2 ^ 16 / 8 / 8 / 8 / 8 % 4 = e := by
    omega
  rw [e1, e2, e3, e4, e5]

/-- Witness of C18: the pipeline delta, shuffle, bit-shuffle, none, delta. -/
theorem decode_encode_filters_defined_ids_witness :
    decode_filters (encode_filters
      { filters := [3, 1, 2, 0, 3], filt_info := 0, compressor := 0, clevel := 0 })
      = [3, 1, 2, 0, 3] :=
  decode_encode_filters_defined_ids
    { filters := [3, 1, 2, 0, 3], filt_info := 0, compressor := 0, clevel := 0 }
    (by decide) (by decide)

/-- C14, counterexample: the container `blosc2_new_schunk` returns has
`cbytes` equal to the size of the header structure, 64 with the reference
backend, not 0. -/
theorem new_schunk_cbytes_not_zero :
    (blosc2_new_schunk refBackend params_none).cbytes = 64
    ∧ ¬ ((blosc2_new_schunk refBackend params_none).cbytes = 0) := by
  decide

/-- C14, amended: for every parameter set `blosc2_new_schunk` returns a
container with `nchunks = 0`, an empty chunk list, `nbytes = 0`, and `cbytes`
equal to the size of the header structure. -/
theorem new_schunk_empty (B : Backend) (params : schunk_params) :
    (blosc2_new_schunk B params).nchunks = 0
    ∧ (blosc2_new_schunk B params).data = []
    ∧ (blosc2_new_schunk B params).data.length = 0
    ∧ (blosc2_new_schunk B params).nbytes = 0
    ∧ (blosc2_new_schunk B params).cbytes = (B.sizeof_schunk_header : Int) := by
  simp [blosc2_new_schunk]

/-- C20, at the failing input: index -1 on a container of one chunk passes
the test `nchunk >= nchunks`, so the call does not return the out-of-range
error, and `data[-1]` is read: outside the chunk array, so that the call
has no defined result. -/
theorem decompress_chunk_negative_index :
    ¬ (schunk_a.nchunks ≤ -1)
    ∧ chunk_at schunk_a.data (-1) = none
    ∧ blosc2_decompress_chunk refBackend schunk_a (-1) = none
    ∧ blosc2_decompress_chunk refBackend schunk_a (-1) ≠ some (-10, none) := by
  decide

/-! ## Delta filter: round trip -/

theorem write_uint32_bytes (buf out : List Nat) (i w : Nat)
    (h : write_uint32 buf i w = some out) :
    ∀ j, 4 * i ≤ j → j < 4 * i + 4 → out.getD j 0 < 256 := by
  unfold write_uint32 at h
  split at h
  · rename_i hlen
    simp only [Option.some.injEq] at h
    obtain ⟨g0, g1, g2, g3, _⟩ := getD_set4 buf (4 * i) (w % 256) (w / 256 % 256)
      (w / 65536 % 256) (w / 16777216 % 256) hlen
    subst h
    intro j hj1 hj2
    have hcases : j = 4 * i ∨ j = 4 * i + 1 ∨ j = 4 * i + 2 ∨ j = 4 * i + 3 := by omega
    rcases hcases with rfl | rfl | rfl | rfl
    · rw [g0]; omega
    · rw [g1]; omega
    · rw [g2]; omega
    · rw [g3]; omega
  · simp at h

theorem word32_bytes_inj (a b : List Nat) (i : Nat)
    (ha : ∀ j, 4 * i ≤ j → j < 4 * i + 4 → a.getD j 0 < 256)
    (hb : ∀ j, 4 * i ≤ j → j < 4 * i + 4 → b.getD j 0 < 256)
    (h : word32 a i = word32 b i) :
    ∀ j, 4 * i ≤ j → j < 4 * i + 4 → a.getD j 0 = b.getD j 0 := by
  unfold word32 at h
  have a0 := ha (4 * i) (by omega) (by omega)
  have a1 := ha (4 * i + 1) (by omega) (by omega)
  have a2 := ha (4 * i + 2) (by omega) (by omega)
  have a3 := ha (4 * i + 3) (by omega) (by omega)
  have b0 := hb (4 * i) (by omega) (by omega)
  have b1 := hb (4 * i + 1) (by omega) (by omega)
  have b2 := hb (4 * i + 2) (by omega) (by omega)
  have b3 := hb (4 * i + 3) (by omega) (by omega)
  intro j hj1 hj2
  have hcases : j = 4 * i ∨ j = 4 * i + 1 ∨ j = 4 * i + 2 ∨ j = 4 * i + 3 := by omega
  rcases hcases with rfl | rfl | rfl | rfl <;> omega

theorem delta_word_loop_bytes (f : List Nat → Nat → Option (List Nat)) (src out : List Nat)
    (k : Nat) (hs : 4 * k ≤ src.length)
    (hf : ∀ d i, i < k → d.length = src.length → ∃ w, f d i = write_uint32 d i w)
    (h : (List.range k).foldlM f src = some out) :
    ∀ j, j < 4 * k → out.getD j 0 < 256 := by
  have hinv := foldlM_range_inv f
    (fun i d => d.length = src.length ∧ ∀ j, j < 4 * i → d.getD j 0 < 256) k src
    ⟨rfl, fun j hj => absurd hj (by omega)⟩
    (by
      intro i d hi ⟨hlen, hlt⟩
      obtain ⟨w, hw⟩ := hf d i hi hlen
      obtain ⟨o, ho, holen, _, hother⟩ := write_uint32_some d i w (by omega)
      refine ⟨o, by rw [hw, ho], by omega, ?_⟩
      intro j hj
      by_cases hjl : j < 4 * i
      · rw [hother j (Or.inl hjl)]
        exact hlt j hjl
      · exact write_uint32_bytes d o i w ho j (by omega) (by omega))
  obtain ⟨o, ho, _, hlt⟩ := hinv
  rw [h] at ho
  simp only [Option.some.injEq] at ho
  subst ho
  exact hlt

theorem ext_getD (a b : List Nat) (hlen : a.length = b.length)
    (h : ∀ j, j < a.length → a.getD j 0 = b.getD j 0) : a = b := by
  apply List.ext_getElem hlen
  intro j h1 h2
  have := h j h1
  simpa [List.getD_eq_getElem?_getD, List.getElem?_eq_getElem h1,
    List.getElem?_eq_getElem h2] using this

theorem getD_lt_of_mem (l : List Nat) (k : Nat) (h : ∀ x ∈ l, x < k) (hk : 0 < k) (j : Nat) :
    l.getD j 0 < k := by
  by_cases hj : j < l.length
  · rw [List.getD_eq_getElem _ _ hj]
    exact h _ (List.getElem_mem _)
  · rw [List.getD_eq_default _ _ (by omega)]
    exact hk

theorem getD_eq_of_get?_eq (a b : List Nat) (j : Nat) (h : a.get? j = b.get? j) :
    a.getD j 0 = b.getD j 0 := by
  simp only [List.get?_eq_getElem?] at h
  simp [List.getD_eq_getElem?_getD, h]


theorem delta_loops_roundtrip (dref d dest : List Nat) (n : Nat)
    (hr : dref.length = n) (hd : d.length = n) (hdest : dest.length = n)
    (hbytes : ∀ x ∈ d, x < 256) :
    ∃ e1 e2, (List.range (n / 4)).foldlM (delta_encoder32_word d dref) dest = some e1
      ∧ (List.range' (n / 4 * 4) (n - n / 4 * 4)).foldlM (delta_encoder32_byte d) e1 = some e2
      ∧ e2.length = n
      ∧ (∀ x ∈ e2, x < 256)
      ∧ (∀ i, i < n / 4 → word32 e2 i = (word32 d i + 2 ^ 32 - word32 dref i) % 2 ^ 32)
      ∧ (∀ j, 4 * (n / 4) ≤ j → j < n → e2.get? j = d.get? j)
      ∧ (List.range (n / 4)).foldlM (delta_decoder32_word dref) e2 = some d := by
  obtain ⟨e1, he1, hlen1, hwords1, _⟩ := delta_encoder32_word_loop d dref dest (n / 4)
    (by omega) (by omega) (by omega)
  obtain ⟨e2, he2, hlen2, hlow2, htail2⟩ := delta_encoder32_byte_loop d e1 (n / 4 * 4)
    (n - n / 4 * 4) (by omega) (by omega)
  obtain ⟨out, hout, hlen3, hwords3, hrest3⟩ := delta_decoder32_word_loop dref e2 (n / 4)
    (by omega) (by omega)
  have hwords2 : ∀ i, i < n / 4 →
      word32 e2 i = (word32 d i + 2 ^ 32 - word32 dref i) % 2 ^ 32 := by
    intro i hi
    rw [← hwords1 i hi]
    exact word32_congr _ _ _ (fun j _ hj2 => hlow2 j (by omega))
  have he1lt : ∀ j, j < 4 * (n / 4) → e1.getD j 0 < 256 := by
    have hdest' : 4 * (n / 4) ≤ dest.length := by omega
    refine delta_word_loop_bytes (delta_encoder32_word d dref) dest e1 (n / 4) hdest' ?_ he1
    intro dd i hi _
    refine ⟨(word32 d i + 2 ^ 32 - word32 dref i) % 2 ^ 32, ?_⟩
    simp only [delta_encoder32_word, read_uint32_eq d i (by omega),
      read_uint32_eq dref i (by omega)]
  have he2lt : ∀ j, e2.getD j 0 < 256 := by
    intro j
    by_cases hj : j < 4 * (n / 4)
    · rw [hlow2 j (by omega)]
      exact he1lt j hj
    · by_cases hjn : j < n
      · rw [getD_eq_of_get?_eq _ _ _ (htail2 j (by omega) (by omega))]
        exact getD_lt_of_mem d 256 hbytes (by omega) j
      · rw [List.getD_eq_default _ _ (by omega)]
        omega
  have houtlt : ∀ j, j < 4 * (n / 4) → out.getD j 0 < 256 := by
    have he2' : 4 * (n / 4) ≤ e2.length := by omega
    refine delta_word_loop_bytes (delta_decoder32_word dref) e2 out (n / 4) he2' ?_ hout
    intro dd i hi hdd
    refine ⟨(word32 dd i + word32 dref i) % 2 ^ 32, ?_⟩
    simp only [delta_decoder32_word, read_uint32_eq dd i (by omega),
      read_uint32_eq dref i (by omega)]
  have hout_eq : out = d := by
    apply ext_getD _ _ (by omega)
    intro j hj
    by_cases hjw : j < 4 * (n / 4)
    · have hi : j / 4 < n / 4 := by omega
      have hw : word32 out (j / 4) = word32 d (j / 4) := by
        rw [hwords3 _ hi, hwords2 _ hi]
        have h1 := word32_lt d (j / 4)
        have h2 := word32_lt dref (j / 4)
        omega
      exact word32_bytes_inj out d (j / 4)
        (fun j' h1 h2 => houtlt j' (by omega))
        (fun j' _ _ => getD_lt_of_mem d 256 hbytes (by omega) j')
        hw j (by omega) (by omega)
    · rw [hrest3 j (by omega)]
      exact getD_eq_of_get?_eq _ _ _ (htail2 j (by omega) (by omega))
  refine ⟨e1, e2, he1, he2, by omega, ?_, hwords2, ?_, ?_⟩
  · intro x hx
    obtain ⟨j, hj, rfl⟩ := List.getElem_of_mem hx
    have := he2lt j
    rwa [List.getD_eq_getElem _ _ hj] at this
  · intro j hj1 hj2
    exact htail2 j (by omega) (by omega)
  · rw [hout, hout_eq]


theorem delta_decoder32_of_loop (B : Backend) (sc : schunk_header) (n : Nat)
    (x ref r out : List Nat) (cb : Int) (href : chunk_at sc.data 0 = some ref)
    (hd : B.blosc_decompress ref n = some (cb, r)) (hcb : 0 ≤ cb) (hr : r.length = n)
    (hloop : (List.range (n / 4)).foldlM (delta_decoder32_word r) x = some out) :
    delta_decoder32 B sc n x = some (toInt32 n, out) := by
  unfold delta_decoder32
  simp only [href, hd, store_malloc_full B n r hr, show ¬ cb < 0 by omega, if_false, hloop]

theorem delta_codec_roundtrip (B : Backend) (sc : schunk_header) (n : Nat)
    (d dest ref r : List Nat) (cb : Int) (href : chunk_at sc.data 0 = some ref)
    (hd : B.blosc_decompress ref n = some (cb, r)) (hcb : 0 ≤ cb) (hr : r.length = n)
    (hdl : d.length = n) (hdest : dest.length = n) (hbytes : ∀ x ∈ d, x < 256) :
    ∃ enc, delta_encoder32 B sc n d dest = some (toInt32 n, enc)
      ∧ enc.length = n
      ∧ (∀ x ∈ enc, x < 256)
      ∧ (∀ i, i < n / 4 → word32 enc i = (word32 d i + 2 ^ 32 - word32 r i) % 2 ^ 32)
      ∧ (∀ j, 4 * (n / 4) ≤ j → j < n → enc.get? j = d.get? j)
      ∧ (∀ sc1 : schunk_header, chunk_at sc1.data 0 = some ref →
          delta_decoder32 B sc1 n enc = some (toInt32 n, d)) := by
  obtain ⟨e1, e2, he1, he2, hlen, hlt, hwords, htail, hdec⟩ :=
    delta_loops_roundtrip r d dest n hr hdl hdest hbytes
  refine ⟨e2, ?_, hlen, hlt, hwords, htail, ?_⟩
  · unfold delta_encoder32
    simp only [href, hd, store_malloc_full B n r hr, show ¬ cb < 0 by omega, if_false, he1, he2]
  · intro sc1 href1
    exact delta_decoder32_of_loop B sc1 n e2 ref r d cb href1 hd hcb hr hdec

theorem delta_decoder32_tail (B : Backend) (sc : schunk_header) (n : Nat) (x out : List Nat)
    (ret : Int) (hx : x.length = n) (h : delta_decoder32 B sc n x = some (ret, out)) :
    out.length = n ∧ ∀ j, 4 * (n / 4) ≤ j → out.getD j 0 = x.getD j 0 := by
  unfold delta_decoder32 at h
  split at h
  · simp at h
  · split at h
    · simp at h
    · split at h
      · simp at h
      · rename_i dref hst
        have hdl : dref.length = n := by rw [store_length _ _ _ hst, malloc_length]
        split at h
        · simp only [Option.some.injEq, Prod.mk.injEq] at h
          obtain ⟨_, rfl⟩ := h
          exact ⟨hx, fun _ _ => rfl⟩
        · obtain ⟨o, ho, holen, _, hrest⟩ := delta_decoder32_word_loop dref x (n / 4)
            (by omega) (by omega)
          simp only [ho, Option.some.injEq, Prod.mk.injEq] at h
          obtain ⟨_, rfl⟩ := h
          exact ⟨by omega, hrest⟩

theorem get?_eq_of_getD_eq (a b : List Nat) (j : Nat) (ha : j < a.length) (hb : j < b.length)
    (h : a.getD j 0 = b.getD j 0) : a.get? j = b.get? j := by
  rw [List.getD_eq_getElem _ _ ha, List.getD_eq_getElem _ _ hb] at h
  simp [List.get?_eq_getElem?, List.getElem?_eq_getElem ha, List.getElem?_eq_getElem hb, h]

/-- C11: when chunk 0 decompresses (non-negative code) to a reference
plaintext `r` of `n` bytes, for a byte buffer `d` of `n` bytes (any `n`) and
a destination of `n` bytes, `delta_encoder32` produces a buffer `enc` on
which `delta_decoder32` with the same reference returns `d` byte for byte.
The bytes from `4 * (n / 4)` on are copied unchanged by the encoder and left
unchanged by the decoder, on every input. -/
theorem delta_roundtrip (B : Backend) (sc : schunk_header) (n : Nat)
    (d dest ref r : List Nat) (cb : Int) (href : chunk_at sc.data 0 = some ref)
    (hd : B.blosc_decompress ref n = some (cb, r)) (hcb : 0 ≤ cb) (hr : r.length = n)
    (hdl : d.length = n) (hdest : dest.length = n) (hbytes : ∀ x ∈ d, x < 256) :
    ∃ enc, delta_encoder32 B sc n d dest = some (toInt32 n, enc)
      ∧ delta_decoder32 B sc n enc = some (toInt32 n, d)
      ∧ (∀ j, 4 * (n / 4) ≤ j → j < n → enc.get? j = d.get? j)
      ∧ (∀ (x out : List Nat) (ret : Int), x.length = n →
          delta_decoder32 B sc n x = some (ret, out) →
          ∀ j, 4 * (n / 4) ≤ j → j < n → out.get? j = x.get? j) := by
  obtain ⟨enc, henc, _, _, _, htail, hdec⟩ :=
    delta_codec_roundtrip B sc n d dest ref r cb href hd hcb hr hdl hdest hbytes
  refine ⟨enc, henc, hdec sc href, htail, ?_⟩
  intro x out ret hx hx2 j hj1 hj2
  obtain ⟨holen, hrest⟩ := delta_decoder32_tail B sc n x out ret hx hx2
  exact get?_eq_of_getD_eq _ _ _ (by omega) (by omega) (hrest j hj1)

/-- Witness of C11: the 31 bytes of `buffer_d` against the plaintext
`buffer_c` of chunk 0. -/
theorem delta_roundtrip_witness :
    ∃ enc, delta_encoder32 refBackend schunk_c 31 buffer_d (malloc refBackend 31)
        = some (toInt32 ((31 : Nat) : Int), enc)
      ∧ delta_decoder32 refBackend schunk_c 31 enc = some (toInt32 ((31 : Nat) : Int), buffer_d)
      ∧ (∀ j, 4 * (31 / 4) ≤ j → j < 31 → enc.get? j = buffer_d.get? j)
      ∧ (∀ (x out : List Nat) (ret : Int), x.length = 31 →
          delta_decoder32 refBackend schunk_c 31 x = some (ret, out) →
          ∀ j, 4 * (31 / 4) ≤ j → j < 31 → out.get? j = x.get? j) :=
  delta_roundtrip refBackend schunk_c 31 buffer_d (malloc refBackend 31) chunk_c buffer_c 31
    (by decide) (by decide) (by decide) (by decide) (by decide) (by decide) (by decide)

/-! ## Container: appending and fetching with a round-tripping backend -/

theorem read_int32_range (buf : List Nat) (off : Nat) (v : Int)
    (h : read_int32 buf off = some v) : -2 ^ 31 ≤ v ∧ v < 2 ^ 31 := by
  unfold read_int32 at h
  split at h
  · simp only [Option.some.injEq] at h
    subst h
    unfold toInt32
    omega
  · simp at h

theorem toSizeT_natCast (n : Nat) (h : (n : Int) < 2 ^ 31) : toSizeT (n : Int) = n := by
  unfold toSizeT
  omega

theorem decode_first_slot (p : schunk_params) (hlen : p.filters.length = BLOSC_MAX_FILTERS)
    (hv : ∀ x ∈ p.filters, x < 8) (h0 : p.filters.getD 0 0 = BLOSC_DELTA) :
    (decode_filters (encode_filters p)).getD 0 0 = BLOSC_DELTA := by
  obtain ⟨fl, fi, co, cl⟩ := p
  obtain ⟨a, b, c, d, e, rfl⟩ := list_length_five fl hlen
  obtain ⟨ha, hb, hc, hd, he⟩ := mem_five_lt a b c d e 8 hv
  simp only [List.getD_cons_zero] at h0
  rw [encode_filters_five a b c d e fi co cl ha hb hc hd he, decode_filters_eq]
  simp only [List.getD_cons_zero]
  unfold BLOSC_DELTA at h0 ⊢
  omega

theorem delta_decoder32_congr (B : Backend) (sc sc2 : schunk_header) (n : Nat) (x : List Nat)
    (h0 : chunk_at sc2.data 0 = chunk_at sc.data 0) :
    delta_decoder32 B sc2 n x = delta_decoder32 B sc n x := by
  unfold delta_decoder32
  rw [h0]

theorem decompress_chunk_congr (B : Backend) (sc sc2 : schunk_header) (k : Nat)
    (hf : sc2.filters = sc.filters) (hk : chunk_at sc2.data k = chunk_at sc.data k)
    (h0 : chunk_at sc2.data 0 = chunk_at sc.data 0)
    (hn : (k : Int) < sc.nchunks) (hn2 : (k : Int) < sc2.nchunks) :
    blosc2_decompress_chunk B sc2 k = blosc2_decompress_chunk B sc k := by
  have p1 : sc.nchunks > 0 := by omega
  have p2 : sc2.nchunks > 0 := by omega
  unfold blosc2_decompress_chunk
  simp only [ge_iff_le, show ¬ sc.nchunks ≤ (k : Int) by omega,
    show ¬ sc2.nchunks ≤ (k : Int) by omega, if_false, hf, hk, p1, p2, and_true,
    delta_decoder32_congr B sc sc2 _ _ h0]

theorem decompress_chunk_fetch (B : Backend) (sc : schunk_header) (k n : Nat)
    (chunk s : List Nat) (hk : (k : Int) < sc.nchunks)
    (hchunk : chunk_at sc.data k = some chunk)
    (h4 : read_int32 chunk 4 = some (n : Int))
    (hdec : B.blosc_decompress chunk n = some ((n : Int), s)) (hs : s.length = n) :
    blosc2_decompress_chunk B sc k =
      if (decode_filters sc.filters).getD 0 0 = BLOSC_DELTA then
        match delta_decoder32 B sc n s with
        | none => none
        | some (_, out) => some ((n : Int), some out)
      else some ((n : Int), some s) := by
  have hn := (read_int32_range chunk 4 n h4).2
  have p1 : sc.nchunks > 0 := by omega
  unfold blosc2_decompress_chunk
  simp only [ge_iff_le, show ¬ sc.nchunks ≤ (k : Int) by omega, if_false, hchunk, h4,
    toSizeT_natCast n hn, hdec, store_malloc_full B n s hs, show ¬ ((n : Int) < 0) by omega,
    ne_eq, not_true_eq_false, p1, and_true]

theorem chunk_at_append_left (data : List (List Nat)) (c : List Nat) (k : Nat)
    (hk : k < data.length) : chunk_at (data ++ [c]) k = chunk_at data k := by
  rw [chunk_at_natCast, chunk_at_natCast]
  simp [List.get?_eq_getElem?, List.getElem?_append_left hk]

theorem chunk_at_append_self (data : List (List Nat)) (c : List Nat) :
    chunk_at (data ++ [c]) (data.length : Int) = some c := by
  rw [chunk_at_natCast]
  simp [List.get?_eq_getElem?]

theorem compress_and_append_positive (B : Backend) (sc sc2 : schunk_header)
    (typesize n : Nat) (s : List Nat) (enc : Nat) (r cb : Int) (w : List Nat)
    (hRT : B.RoundTrip) (hRS : B.RecordsSize) (hcount : sc.nchunks = (sc.data.length : Int))
    (hs : s.length = n) (hbytes : ∀ x ∈ s, x < 256)
    (hcall : B.blosc_compress sc.clevel enc typesize n s n = some (cb, w)) (hpos : 0 < cb)
    (h : compress_and_append B sc typesize n s enc = some (r, sc2)) :
    ∃ chunk, sc2.data = sc.data ++ [chunk] ∧ sc2.nchunks = sc.nchunks + 1
      ∧ sc2.filters = sc.filters ∧ sc2.clevel = sc.clevel
      ∧ read_int32 chunk 4 = some (n : Int)
      ∧ B.blosc_decompress chunk n = some ((n : Int), s) := by
  obtain ⟨cb1, w1, chunk, hcall1, hst, hcase⟩ := compress_and_append_some B sc sc2 _ _ _ _ _ h
  rw [hcall] at hcall1
  simp only [Option.some.injEq, Prod.mk.injEq] at hcall1
  obtain ⟨rfl, rfl⟩ := hcall1
  rcases hcase with ⟨hneg, _, _⟩ | ⟨_, happ⟩
  · omega
  · obtain ⟨m, nb, cbb, stored, hm, _, _, hstored, _, hsc⟩ :=
      append_chunk_some sc sc2 chunk 0 r happ
    have hst2 : stored = chunk := by
      rcases chunk_to_store_some chunk stored cbb 0 hstored with ⟨_, e⟩ | ⟨hne, _⟩
      · exact e
      · exact absurd rfl hne
    have hlen : m = sc.data.length := by omega
    subst hs
    refine ⟨chunk, ?_, ?_, ?_, ?_, hRS _ _ _ s _ cb w chunk hcall hpos hst,
      hRT _ _ _ s _ cb w chunk hbytes hcall hpos hst⟩
    · rw [hsc, hst2, hlen]
      exact realloc_succ_set _ _
    · rw [hsc, hm]
    · rw [hsc]
    · rw [hsc]

theorem append_buffer_delta_empty (B : Backend) (sc : schunk_header) (typesize n : Nat)
    (src : List Nat) (hdelta : (decode_filters sc.filters).getD 0 0 = BLOSC_DELTA)
    (h0 : ¬ sc.nchunks > 0) :
    blosc2_append_buffer B sc typesize n src
      = compress_and_append B sc typesize n src (sc.filters / 8) := by
  unfold blosc2_append_buffer
  simp only [hdelta, h0, if_true, if_false]

theorem append_buffer_delta_encoded (B : Backend) (sc : schunk_header) (typesize n : Nat)
    (src dest : List Nat) (ret : Int)
    (hdelta : (decode_filters sc.filters).getD 0 0 = BLOSC_DELTA) (hpos : sc.nchunks > 0)
    (henc : delta_encoder32 B sc n src (malloc B n) = some (ret, dest)) (hret : 0 ≤ ret) :
    blosc2_append_buffer B sc typesize n src
      = compress_and_append B sc typesize n dest (sc.filters / 8) := by
  unfold blosc2_append_buffer
  simp only [hdelta, hpos, if_true, henc, show ¬ ret < 0 by omega, if_false]

theorem new_schunk_fields (B : Backend) (params : schunk_params) :
    (blosc2_new_schunk B params).filters = encode_filters params
    ∧ (blosc2_new_schunk B params).clevel = params.clevel
    ∧ (blosc2_new_schunk B params).nchunks = 0
    ∧ (blosc2_new_schunk B params).data = [] := by
  simp [blosc2_new_schunk]


theorem appended_first_facts (B : Backend) (params : schunk_params) (typesize n : Nat)
    (a : List Nat) (sc1 : schunk_header) (hRT : B.RoundTrip) (hRS : B.RecordsSize)
    (hdelta : (decode_filters (encode_filters params)).getD 0 0 = BLOSC_DELTA)
    (h : AppendedFirst B params typesize n a sc1) :
    sc1.filters = encode_filters params ∧ sc1.clevel = params.clevel
    ∧ sc1.nchunks = 1
    ∧ ∃ c0, sc1.data = [c0] ∧ read_int32 c0 4 = some (n : Int)
      ∧ B.blosc_decompress c0 n = some ((n : Int), a) := by
  obtain ⟨ha, hbytes, ⟨r, happ⟩, cb, w, hcall, hpos⟩ := h
  obtain ⟨hf0, hc0, hn0, hd0⟩ := new_schunk_fields B params
  generalize blosc2_new_schunk B params = sc0 at happ hf0 hc0 hn0 hd0
  rw [append_buffer_delta_empty B sc0 typesize n a (by rw [hf0]; exact hdelta)
    (by rw [hn0]; decide)] at happ
  rw [← hc0, ← hf0] at hcall
  obtain ⟨c0, hdata, hn, hf, hc, h4, hdec⟩ := compress_and_append_positive B
    sc0 sc1 typesize n a _ r cb w hRT hRS (by rw [hn0, hd0]; rfl) ha hbytes hcall hpos happ
  refine ⟨by rw [hf, hf0], by rw [hc, hc0], by rw [hn, hn0]; rfl, c0, ?_, h4, hdec⟩
  rw [hdata, hd0]
  rfl


theorem deltaBuilt_inv (B : Backend) (params : schunk_params) (typesize n : Nat)
    (bufs : List (List Nat)) (sc : schunk_header) (hRT : B.RoundTrip) (hRS : B.RecordsSize)
    (hdelta : (decode_filters (encode_filters params)).getD 0 0 = BLOSC_DELTA)
    (h : DeltaBuilt B params typesize n bufs sc) :
    sc.filters = encode_filters params ∧ sc.clevel = params.clevel
    ∧ sc.nchunks = (sc.data.length : Int) ∧ sc.data.length = bufs.length ∧ 1 ≤ bufs.length
    ∧ (∃ c0, chunk_at sc.data 0 = some c0 ∧ (bufs.getD 0 []).length = n
        ∧ read_int32 c0 4 = some (n : Int)
        ∧ B.blosc_decompress c0 n = some ((n : Int), bufs.getD 0 []))
    ∧ (∀ k, 1 ≤ k → k < bufs.length →
        blosc2_decompress_chunk B sc k = some ((n : Int), some (bufs.getD k []))) := by
  induction h with
  | first a sc1 hfirst =>
    obtain ⟨hf, hc, hn, c0, hdata, h4, hdec⟩ :=
      appended_first_facts B params typesize n a sc1 hRT hRS hdelta hfirst
    refine ⟨hf, hc, by rw [hn, hdata]; rfl, by rw [hdata]; rfl, by simp, ?_, ?_⟩
    · exact ⟨c0, by rw [hdata]; rfl, hfirst.1, h4, hdec⟩
    · intro k hk1 hk2
      simp at hk2
      omega
  | next bufs sc sc2 b _ hnext ih =>
    obtain ⟨hf, hc, hcount, hlen, hne, ⟨c0, hc0, ha, h40, hdec0⟩, hfetch⟩ := ih
    obtain ⟨hb, hbytes, ⟨r, happ⟩, hcomp⟩ := hnext
    have hn31 : (n : Int) < 2 ^ 31 := (read_int32_range c0 4 (n : Int) h40).2
    have hdelta_sc : (decode_filters sc.filters).getD 0 0 = BLOSC_DELTA := by rw [hf]; exact hdelta
    have hn0 : (0 : Int) ≤ (n : Int) := Int.ofNat_nonneg n
    obtain ⟨enc, henc, henclen, henclt, _, _, hdecode⟩ := delta_codec_roundtrip B sc n b
      (malloc B n) c0 (bufs.getD 0 []) (n : Int) hc0 hdec0 hn0 ha hb (malloc_length B n) hbytes
    have hm31 : -(2 : Int) ^ 31 ≤ (n : Int) := by
      have : (-(2 : Int) ^ 31) ≤ 0 := by norm_num
      exact le_trans this hn0
    have hto : toInt32 (n : Int) = (n : Int) := toInt32_of_range _ hm31 hn31
    rw [hto] at henc hdecode
    have hposn : sc.nchunks > 0 := by
      rw [hcount, hlen]
      exact_mod_cast hne
    rw [append_buffer_delta_encoded B sc typesize n b enc (n : Int) hdelta_sc hposn henc
      hn0] at happ
    obtain ⟨cb, w, hcall, hpos⟩ := hcomp _ _ henc
    rw [← hc, ← hf] at hcall
    obtain ⟨chunk, hdata, hn2, hf2, hc2, h4, hdec⟩ := compress_and_append_positive B sc sc2
      typesize n enc _ r cb w hRT hRS hcount henclen henclt hcall hpos happ
    have hdpos : 0 < sc.data.length := by rw [hlen]; exact hne
    have hc0' : chunk_at sc2.data 0 = some c0 := by
      rw [hdata]
      have := chunk_at_append_left sc.data chunk 0 hdpos
      rw [← hc0]
      exact this
    have hk2 : sc2.nchunks = ((sc.data.length + 1 : Nat) : Int) := by
      rw [hn2, hcount]
      push_cast
      rfl
    refine ⟨by rw [hf2, hf], by rw [hc2, hc], ?_, ?_, by simp, ?_, ?_⟩
    · rw [hk2, hdata]
      simp
    · rw [hdata]
      simp [hlen]
    · refine ⟨c0, hc0', ?_, h40, ?_⟩
      · rw [List.getD_append _ _ _ _ hne]
        exact ha
      · rw [List.getD_append _ _ _ _ hne]
        exact hdec0
    · intro k hk1 hk2'
      simp only [List.length_append, List.length_cons, List.length_nil] at hk2'
      by_cases hkl : k < bufs.length
      · rw [List.getD_append _ _ _ _ hkl, ← hfetch k hk1 hkl]
        have hkd : k < sc.data.length := by rw [hlen]; exact hkl
        apply decompress_chunk_congr B sc sc2 k hf2
        · rw [hdata]
          exact chunk_at_append_left _ _ _ hkd
        · rw [hc0', hc0]
        · rw [hcount]
          exact_mod_cast hkd
        · rw [hk2]
          exact_mod_cast Nat.lt_succ_of_lt hkd
      · have hkeq : k = sc.data.length := by omega
        have hchunk : chunk_at sc2.data (k : Int) = some chunk := by
          rw [hdata, hkeq]
          exact chunk_at_append_self _ _
        have hklt : (k : Int) < sc2.nchunks := by
          rw [hk2, hkeq]
          exact_mod_cast Nat.lt_succ_self _
        rw [decompress_chunk_fetch B sc2 k n chunk enc hklt hchunk h4 hdec henclen]
        rw [if_pos (by rw [hf2]; exact hdelta_sc), hdecode sc2 hc0']
        have hget : (bufs ++ [b]).getD k [] = b := by
          rw [List.getD_append_right _ _ _ _ (by omega)]
          simp [show k - bufs.length = 0 by omega]
        rw [hget]

theorem refBackend_recordsSize : refBackend.RecordsSize := by
  intro clevel doshuffle typesize src destsize cb w chunk hc hcb hst
  simp only [refBackend, ref_compress, List.take_length] at hc
  split at hc
  · rename_i hfit
    obtain ⟨hfit1, hfit2, hfit3⟩ := hfit
    simp only [Option.some.injEq, Prod.mk.injEq] at hc
    obtain ⟨_, hw⟩ := hc
    unfold store at hst
    split at hst
    · simp only [Option.some.injEq] at hst
      subst hst
      subst hw
      simp only [read_int32, le32, List.cons_append, List.nil_append, List.append_assoc,
        List.length_cons, List.getD_cons_succ, List.getD_cons_zero]
      rw [if_pos (by omega), le32_value _ hfit2]
    · simp at hst
  · simp only [Option.some.injEq, Prod.mk.injEq] at hc
    omega

/-- C15, at the failing input: the backend cannot fit `buffer_dense` in the
32-byte chunk buffer, returns 0 and stores nothing; `blosc2_append_buffer`
tests only `cbytes < 0`, returns 1 and appends the chunk buffer as `malloc`
returned it, from which `blosc2_decompress_chunk` gets no data back. -/
theorem append_buffer_appends_unwritten_chunk :
    refBackend.blosc_compress 5 0 4 32 buffer_dense 32 = some (0, [])
    ∧ blosc2_append_buffer refBackend (blosc2_new_schunk refBackend params_none) 4 32
        buffer_dense = some (1, schunk_dense)
    ∧ schunk_dense.data = [malloc refBackend 32]
    ∧ blosc2_decompress_chunk refBackend schunk_dense 0 = some (-1, some []) := by
  decide

/-- C12: with delta as the first slot of the pipeline and a round-tripping
backend that records the plaintext size in the chunk header, in a container
built by appending byte buffers of one length `n` with
`blosc2_append_buffer`, each compressed by the backend,
`blosc2_decompress_chunk` at every index `k >= 1` returns `n` and the bytes
of the `k`-th appended buffer: index 1 after the buffers A and B, and every
later index. -/
theorem delta_later_chunks_roundtrip (B : Backend) (params : schunk_params)
    (typesize n : Nat) (bufs : List (List Nat)) (sc : schunk_header)
    (hRT : B.RoundTrip) (hRS : B.RecordsSize)
    (hplen : params.filters.length = BLOSC_MAX_FILTERS) (hpv : ∀ x ∈ params.filters, x < 8)
    (hp0 : params.filters.getD 0 0 = BLOSC_DELTA)
    (h : DeltaBuilt B params typesize n bufs sc) :
    ∀ k, 1 ≤ k → k < bufs.length →
      blosc2_decompress_chunk B sc k = some ((n : Int), some (bufs.getD k [])) :=
  (deltaBuilt_inv B params typesize n bufs sc hRT hRS
    (decode_first_slot params hplen hpv hp0) h).2.2.2.2.2.2

/-- C19: with delta as the first slot of the pipeline and a round-tripping
backend that records the plaintext size in the chunk header, after the
first buffer `a` of `n` bytes was appended and compressed,
`blosc2_decompress_chunk` at index 0 returns `n` and a buffer whose 32-bit
word `i` is `(a word i + a word i) mod 2^32` for `i < n / 4` and whose bytes
from `4 * (n / 4)` on are those of `a`. -/
theorem decompress_chunk_zero_added_to_itself (B : Backend) (params : schunk_params)
    (typesize n : Nat) (a : List Nat) (sc1 : schunk_header)
    (hRT : B.RoundTrip) (hRS : B.RecordsSize)
    (hplen : params.filters.length = BLOSC_MAX_FILTERS) (hpv : ∀ x ∈ params.filters, x < 8)
    (hp0 : params.filters.getD 0 0 = BLOSC_DELTA)
    (h : AppendedFirst B params typesize n a sc1) :
    ∃ out, blosc2_decompress_chunk B sc1 0 = some ((n : Int), some out)
      ∧ out.length = n
      ∧ (∀ i, i < n / 4 → word32 out i = (word32 a i + word32 a i) % 2 ^ 32)
      ∧ (∀ j, 4 * (n / 4) ≤ j → j < n → out.get? j = a.get? j) := by
  have hdelta := decode_first_slot params hplen hpv hp0
  obtain ⟨hf, _, hn, c0, hdata, h4, hdec⟩ :=
    appended_first_facts B params typesize n a sc1 hRT hRS hdelta h
  have ha : a.length = n := h.1
  have hc0 : chunk_at sc1.data 0 = some c0 := by rw [hdata]; rfl
  have hn31 : (n : Int) < 2 ^ 31 := (read_int32_range c0 4 (n : Int) h4).2
  have hn0 : (0 : Int) ≤ (n : Int) := Int.ofNat_nonneg n
  obtain ⟨out, hout, holen, hwords, hrest⟩ := delta_decoder32_word_loop a a (n / 4)
    (by omega) (by omega)
  have hdecode := delta_decoder32_of_loop B sc1 n a c0 a out (n : Int) hc0 hdec hn0 ha hout
  have hfetch := decompress_chunk_fetch B sc1 0 n c0 a (by rw [hn]; decide) hc0 h4 hdec ha
  refine ⟨out, ?_, by omega, hwords, ?_⟩
  · have h0 : ((0 : Nat) : Int) = 0 := rfl
    rw [h0] at hfetch
    rw [hfetch, if_pos (by rw [hf]; exact hdelta), hdecode]
  · intro j hj1 hj2
    exact get?_eq_of_getD_eq _ _ _ (by omega) (by omega) (hrest j hj1)

theorem delta_encoder32_eq (B : Backend) (sc : schunk_header) (n : Nat)
    (src dest ref r : List Nat) (cb : Int) (href : chunk_at sc.data 0 = some ref)
    (hd : B.blosc_decompress ref n = some (cb, r)) (hcb : 0 ≤ cb) (hr : r.length = n)
    (hsrc : src.length = n) (hdest : dest.length = n) :
    ∃ out, delta_encoder32 B sc n src dest = some (toInt32 (n : Int), out)
      ∧ out.length = n
      ∧ (∀ i, i < n / 4 →
          ((word32 out i : Nat) : Int)
            = (((word32 src i : Nat) : Int) - ((word32 r i : Nat) : Int)) % 2 ^ 32)
      ∧ (∀ j, 4 * (n / 4) ≤ j → j < n → out.get? j = src.get? j) := by
  obtain ⟨d1, hd1, hlen1, hwords1, _⟩ := delta_encoder32_word_loop src r dest (n / 4)
    (by omega) (by omega) (by omega)
  obtain ⟨d2, hd2, hlen2, hlow2, htail2⟩ := delta_encoder32_byte_loop src d1 (n / 4 * 4)
    (n - n / 4 * 4) (by omega) (by omega)
  refine ⟨d2, ?_, by omega, ?_, ?_⟩
  · unfold delta_encoder32
    simp only [href, hd, store_malloc_full B n r hr, show ¬ cb < 0 by omega, if_false, hd1, hd2]
  · intro i hi
    have hw : word32 d2 i = word32 d1 i :=
      word32_congr _ _ _ (fun j _ hj2 => hlow2 j (by omega))
    rw [hw, hwords1 i hi]
    have h1 := word32_lt src i
    have h2 := word32_lt r i
    omega
  · intro j hj1 hj2
    exact htail2 j (by omega) (by omega)

theorem compress_and_append_eq (B : Backend) (sc : schunk_header) (typesize n : Nat)
    (s : List Nat) (enc : Nat) (cb : Int) (w : List Nat)
    (hcall : B.blosc_compress sc.clevel enc typesize n s n = some (cb, w))
    (hw : w.length ≤ n) :
    compress_and_append B sc typesize n s enc
      = if cb < 0 then some (cb, sc)
        else blosc2_append_chunk sc (w ++ (malloc B n).drop w.length) 0 := by
  have hst : store (malloc B n) w = some (w ++ (malloc B n).drop w.length) := by
    unfold store
    rw [if_pos (by rw [malloc_length]; exact hw)]
  unfold compress_and_append
  simp only [hcall, hst]

theorem compress_and_append_none (B : Backend) (sc : schunk_header) (typesize n : Nat)
    (s : List Nat) (enc : Nat)
    (hcall : B.blosc_compress sc.clevel enc typesize n s n = none) :
    compress_and_append B sc typesize n s enc = none := by
  unfold compress_and_append
  simp only [hcall]

/-- C13: when the first slot of the stored pipeline is the delta filter,
the result of `blosc2_append_buffer` is fixed by what `blosc_compress`
answers when handed the level, the filter code `filters >> 3`, the typesize,
`n`, a source buffer and the destination size `n`: the negative code
returned with the container as it was, or `blosc2_append_chunk` of the
buffer the backend wrote, and no result when that call has none.  On a
container with `nchunks = 0` the source buffer handed over is `src` itself;
on one with `nchunks > 0` whose chunk 0 decompresses to a plaintext `r` of
`n` bytes (`n` within `int`) it is the output of `delta_encoder32`, whose
words are those of `src` minus those of `r`.  The call returns whenever the
backend calls return within their buffers, the container counts its chunks,
`src` has `n` bytes and `n` is at least 16. -/
theorem append_buffer_delta_input (B : Backend) (sc : schunk_header) (typesize n : Nat)
    (src : List Nat) (hdelta : (decode_filters sc.filters).getD 0 0 = BLOSC_DELTA) :
    (sc.nchunks = 0 →
      (∀ (cb : Int) (w : List Nat),
        B.blosc_compress sc.clevel (sc.filters / 8) typesize n src n = some (cb, w) →
        w.length ≤ n →
        blosc2_append_buffer B sc typesize n src
          = if cb < 0 then some (cb, sc)
            else blosc2_append_chunk sc (w ++ (malloc B n).drop w.length) 0)
      ∧ (B.blosc_compress sc.clevel (sc.filters / 8) typesize n src n = none →
          blosc2_append_buffer B sc typesize n src = none))
    ∧ (sc.nchunks > 0 → ∀ (ref r : List Nat) (cbr : Int), chunk_at sc.data 0 = some ref →
        B.blosc_decompress ref n = some (cbr, r) → 0 ≤ cbr → r.length = n → src.length = n →
        (n : Int) ≤ INT_MAX →
        ∃ dest, delta_encoder32 B sc n src (malloc B n) = some ((n : Int), dest)
          ∧ (∀ i, i < n / 4 →
              ((word32 dest i : Nat) : Int)
                = (((word32 src i : Nat) : Int) - ((word32 r i : Nat) : Int)) % 2 ^ 32)
          ∧ (∀ j, 4 * (n / 4) ≤ j → j < n → dest.get? j = src.get? j)
          ∧ (∀ (cb : Int) (w : List Nat),
              B.blosc_compress sc.clevel (sc.filters / 8) typesize n dest n = some (cb, w) →
              w.length ≤ n →
              blosc2_append_buffer B sc typesize n src
                = if cb < 0 then some (cb, sc)
                  else blosc2_append_chunk sc (w ++ (malloc B n).drop w.length) 0)
          ∧ (B.blosc_compress sc.clevel (sc.filters / 8) typesize n dest n = none →
              blosc2_append_buffer B sc typesize n src = none))
    ∧ (B.Safe → sc.nchunks = (sc.data.length : Int) → src.length = n → 16 ≤ n →
        ∃ r sc1, blosc2_append_buffer B sc typesize n src = some (r, sc1)) := by
  refine ⟨?_, ?_, ?_⟩
  · intro h0
    have hskip := append_buffer_delta_empty B sc typesize n src hdelta (by rw [h0]; decide)
    refine ⟨?_, ?_⟩
    · intro cb w hcall hw
      rw [hskip]
      exact compress_and_append_eq B sc typesize n src _ cb w hcall hw
    · intro hcall
      rw [hskip]
      exact compress_and_append_none B sc typesize n src _ hcall
  · intro hpos ref r cbr href hd hcb hr hsrc hn
    obtain ⟨dest, henc, _, hwords, htail⟩ := delta_encoder32_eq B sc n src (malloc B n) ref r
      cbr href hd hcb hr hsrc (malloc_length B n)
    have hn0 : (0 : Int) ≤ (n : Int) := Int.ofNat_nonneg n
    have hto : toInt32 (n : Int) = (n : Int) :=
      toInt32_of_range (n : Int) (le_trans (by norm_num) hn0)
        (by unfold INT_MAX at hn; omega)
    rw [hto] at henc
    have hdo := append_buffer_delta_encoded B sc typesize n src dest (n : Int) hdelta hpos
      henc hn0
    refine ⟨dest, henc, hwords, htail, ?_, ?_⟩
    · intro cb w hcall hw
      rw [hdo]
      exact compress_and_append_eq B sc typesize n dest _ cb w hcall hw
    · intro hcall
      rw [hdo]
      exact compress_and_append_none B sc typesize n dest _ hcall
  · intro hB hcount hsrc h16
    exact append_buffer_returns B sc typesize n src hB hcount hsrc h16

theorem appendedFirst_a : AppendedFirst refBackend params_delta 4 32 buffer_a schunk_a :=
  ⟨by decide, by decide, ⟨1, by decide⟩, ⟨24, _, rfl, by decide⟩⟩

theorem appendedNext_b : AppendedNext refBackend params_delta 4 32 schunk_a buffer_b schunk_ab := by
  refine ⟨by decide, by decide, ⟨2, by decide⟩, ?_⟩
  intro ret eb h
  have he : delta_encoder32 refBackend schunk_a 32 buffer_b (malloc refBackend 32)
      = some (32, List.replicate 24 0 ++ [5, 0, 0, 0, 5, 0, 0, 0]) := by decide
  rw [he] at h
  simp only [Option.some.injEq, Prod.mk.injEq] at h
  obtain ⟨_, rfl⟩ := h
  exact ⟨24, _, rfl, by decide⟩

theorem deltaBuilt_ab :
    DeltaBuilt refBackend params_delta 4 32 [buffer_a, buffer_b] schunk_ab :=
  DeltaBuilt.next [buffer_a] schunk_a schunk_ab buffer_b
    (DeltaBuilt.first buffer_a schunk_a appendedFirst_a) appendedNext_b

/-- Witness of C12: `buffer_a` then `buffer_b` appended with the reference
backend, fetched at index 1. -/
theorem delta_later_chunks_roundtrip_witness :
    blosc2_decompress_chunk refBackend schunk_ab ((1 : Nat) : Int)
      = some (((32 : Nat) : Int), some ([buffer_a, buffer_b].getD 1 [])) :=
  delta_later_chunks_roundtrip refBackend params_delta 4 32 [buffer_a, buffer_b] schunk_ab
    refBackend_roundtrip refBackend_recordsSize (by decide) (by decide) (by decide)
    deltaBuilt_ab 1 (by decide) (by decide)

/-- Witness of C19: `buffer_a` appended with the reference backend, fetched
at index 0. -/
theorem decompress_chunk_zero_added_to_itself_witness :
    ∃ out, blosc2_decompress_chunk refBackend schunk_a 0 = some (((32 : Nat) : Int), some out)
      ∧ out.length = 32
      ∧ (∀ i, i < 32 / 4 → word32 out i = (word32 buffer_a i + word32 buffer_a i) % 2 ^ 32)
      ∧ (∀ j, 4 * (32 / 4) ≤ j → j < 32 → out.get? j = buffer_a.get? j) :=
  decompress_chunk_zero_added_to_itself refBackend params_delta 4 32 buffer_a schunk_a
    refBackend_roundtrip refBackend_recordsSize (by decide) (by decide) (by decide)
    appendedFirst_a

/-- Witness of C13: `buffer_b` appended to the delta container holding the
chunk of `buffer_a`: the backend is handed the delta `5, 5` of the words
`6, 7` against `1, 2`, and the chunk it wrote is appended. -/
theorem append_buffer_delta_input_witness :
    (∃ dest, delta_encoder32 refBackend schunk_a 32 buffer_b (malloc refBackend 32)
        = some (((32 : Nat) : Int), dest)
      ∧ (∀ i, i < 32 / 4 →
          ((word32 dest i : Nat) : Int)
            = (((word32 buffer_b i : Nat) : Int) - ((word32 buffer_a i : Nat) : Int)) % 2 ^ 32)
      ∧ (∀ j, 4 * (32 / 4) ≤ j → j < 32 → dest.get? j = buffer_b.get? j)
      ∧ (∀ (cb : Int) (w : List Nat),
          refBackend.blosc_compress schunk_a.clevel (schunk_a.filters / 8) 4 32 dest 32
            = some (cb, w) →
          w.length ≤ 32 →
          blosc2_append_buffer refBackend schunk_a 4 32 buffer_b
            = if cb < 0 then some (cb, schunk_a)
              else blosc2_append_chunk schunk_a (w ++ (malloc refBackend 32).drop w.length) 0)
      ∧ (refBackend.blosc_compress schunk_a.clevel (schunk_a.filters / 8) 4 32 dest 32 = none →
          blosc2_append_buffer refBackend schunk_a 4 32 buffer_b = none))
    ∧ refBackend.blosc_compress 5 1 4 32 (List.replicate 24 0 ++ [5, 0, 0, 0, 5, 0, 0, 0]) 32
      = some (24, chunk_b.take 24)
    ∧ blosc2_append_buffer refBackend schunk_a 4 32 buffer_b = some (2, schunk_ab) :=
  ⟨(append_buffer_delta_input refBackend schunk_a 4 32 buffer_b (by decide)).2.1 (by decide)
      chunk_a buffer_a 32 (by decide) (by decide) (by decide) (by decide) (by decide)
      (by decide),
    by decide, by decide⟩

/-! ## Bit-shuffle -/

theorem pack_bits_length (n : Nat) (f : Nat → Nat) : (pack_bits n f).length = n := by
  simp [pack_bits]

theorem pack_bits_congr (n : Nat) (f g : Nat → Nat)
    (h : ∀ m, m < 8 * n → f m % 2 = g m % 2) : pack_bits n f = pack_bits n g := by
  unfold pack_bits
  apply List.map_congr_left
  intro i hi
  have hi' : i < n := List.mem_range.mp hi
  rw [h (8 * i) (by omega), h (8 * i + 1) (by omega), h (8 * i + 2) (by omega),
    h (8 * i + 3) (by omega), h (8 * i + 4) (by omega), h (8 * i + 5) (by omega),
    h (8 * i + 6) (by omega), h (8 * i + 7) (by omega)]

theorem getD_pack_bits (n : Nat) (f : Nat → Nat) (i : Nat) (hi : i < n) :
    (pack_bits n f).getD i 0 =
      f (8 * i) % 2 + 2 * (f (8 * i + 1) % 2) + 4 * (f (8 * i + 2) % 2)
        + 8 * (f (8 * i + 3) % 2) + 16 * (f (8 * i + 4) % 2) + 32 * (f (8 * i + 5) % 2)
        + 64 * (f (8 * i + 6) % 2) + 128 * (f (8 * i + 7) % 2) := by
  have hlen : i < (pack_bits n f).length := by rw [pack_bits_length]; exact hi
  rw [List.getD_eq_getElem _ _ hlen]
  simp [pack_bits]

theorem bit_at_pack_bits (n : Nat) (f : Nat → Nat) (m : Nat) (hm : m < 8 * n) :
    bit_at (pack_bits n f) m = f m % 2 := by
  unfold bit_at
  rw [getD_pack_bits n f (m / 8) (by omega)]
  have hk : m % 8 < 8 := Nat.mod_lt _ (by norm_num)
  have hm8 : 8 * (m / 8) + m % 8 = m := Nat.div_add_mod m 8
  generalize hq : m / 8 = q at hm8
  generalize hr : m % 8 = k at hk hm8
  subst hm8
  interval_cases k <;> simp only [Nat.add_zero, pow_zero, pow_one, Nat.reducePow] <;> omega


theorem bit_at_byte (buf : List Nat) (i k : Nat) (hk : k < 8) :
    bit_at buf (8 * i + k) = buf.getD i 0 / 2 ^ k % 2 := by
  unfold bit_at
  rw [show (8 * i + k) / 8 = i by omega, show (8 * i + k) % 8 = k by omega]

theorem byte_bits_sum (x : Nat) (h : x < 256) :
    x / 2 ^ 0 % 2 % 2 + 2 * (x / 2 ^ 1 % 2 % 2) + 4 * (x / 2 ^ 2 % 2 % 2)
      + 8 * (x / 2 ^ 3 % 2 % 2) + 16 * (x / 2 ^ 4 % 2 % 2) + 32 * (x / 2 ^ 5 % 2 % 2)
      + 64 * (x / 2 ^ 6 % 2 % 2) + 128 * (x / 2 ^ 7 % 2 % 2) = x := by
  norm_num
  omega

theorem pack_bits_bit_at (buf : List Nat) (hbytes : ∀ x ∈ buf, x < 256) :
    pack_bits buf.length (bit_at buf) = buf := by
  apply ext_getD _ _ (pack_bits_length _ _)
  intro i hi
  rw [pack_bits_length] at hi
  rw [getD_pack_bits _ _ i hi]
  have h0 : bit_at buf (8 * i) = buf.getD i 0 / 2 ^ 0 % 2 := bit_at_byte buf i 0 (by omega)
  rw [h0, bit_at_byte buf i 1 (by omega), bit_at_byte buf i 2 (by omega),
    bit_at_byte buf i 3 (by omega), bit_at_byte buf i 4 (by omega),
    bit_at_byte buf i 5 (by omega), bit_at_byte buf i 6 (by omega),
    bit_at_byte buf i 7 (by omega)]
  exact byte_bits_sum _ (getD_lt_of_mem buf 256 hbytes (by omega) i)

theorem transpose_index (rows cols m : Nat) (hm : m < rows * cols) :
    (m % cols * rows + m / cols) < cols * rows
    ∧ (m % cols * rows + m / cols) % rows * cols + (m % cols * rows + m / cols) / rows = m := by
  have hc : 0 < cols := by
    rcases Nat.eq_zero_or_pos cols with h | h
    · subst h; simp at hm
    · exact h
  have hr : 0 < rows := by
    rcases Nat.eq_zero_or_pos rows with h | h
    · subst h; simp at hm
    · exact h
  have hq : m / cols < rows := (Nat.div_lt_iff_lt_mul hc).mpr hm
  have hmod : m % cols < cols := Nat.mod_lt _ hc
  constructor
  · calc m % cols * rows + m / cols < m % cols * rows + rows := by omega
      _ = (m % cols + 1) * rows := by ring
      _ ≤ cols * rows := Nat.mul_le_mul_right rows hmod
  · have e1 : (m % cols * rows + m / cols) % rows = m / cols := by
      rw [Nat.add_comm, Nat.add_mul_mod_self_right]
      exact Nat.mod_eq_of_lt hq
    have e2 : (m % cols * rows + m / cols) / rows = m % cols := by
      rw [Nat.add_comm, Nat.add_mul_div_right _ _ hr, Nat.div_eq_of_lt hq, Nat.zero_add]
    rw [e1, e2, Nat.mul_comm]
    exact Nat.div_add_mod m cols

theorem bit_transpose_involution (rows cols : Nat) (src : List Nat) (h8 : 8 ∣ rows * cols)
    (hlen : src.length = rows * cols / 8) (hbytes : ∀ x ∈ src, x < 256) :
    bit_transpose cols rows (bit_transpose rows cols src) = src := by
  have hN : 8 * (rows * cols / 8) = rows * cols := Nat.mul_div_cancel' h8
  have hcomm : cols * rows / 8 = rows * cols / 8 := by rw [Nat.mul_comm]
  unfold bit_transpose
  rw [hcomm]
  have hcong := pack_bits_congr (rows * cols / 8)
    (fun m => bit_at (pack_bits (rows * cols / 8)
      (fun m => bit_at src (m % rows * cols + m / rows))) (m % cols * rows + m / cols))
    (bit_at src)
    (by
      intro m hm
      rw [hN] at hm
      obtain ⟨hlt, hidx⟩ := transpose_index rows cols m hm
      have hlt' : m % cols * rows + m / cols < 8 * (rows * cols / 8) := by
        rw [hN, Nat.mul_comm rows cols]
        exact hlt
      show bit_at (pack_bits (rows * cols / 8)
          (fun m => bit_at src (m % rows * cols + m / rows))) (m % cols * rows + m / cols) % 2
        = bit_at src m % 2
      rw [bit_at_pack_bits _ _ _ hlt']
      show bit_at src ((m % cols * rows + m / cols) % rows * cols
          + (m % cols * rows + m / cols) / rows) % 2 % 2 = bit_at src m % 2
      rw [hidx, Nat.mod_mod])
  rw [hcong, ← hlen]
  exact pack_bits_bit_at src hbytes


/-- C17: for a byte buffer of `elem_size * size` bytes (any element size and
element count), un-shuffling the bit-shuffled buffer returns the original
bytes for the four pairings of the forward kernels `bitshuffle_neon`,
`bshuf_trans_bit_elem_scal` with the inverse kernels `bitunshuffle_neon`,
`bshuf_untrans_bit_elem_scal`. -/
theorem bitshuffle_roundtrip_pairings (src : List Nat) (size elem_size : Nat)
    (hlen : src.length = elem_size * size) (hbytes : ∀ x ∈ src, x < 256) :
    bitunshuffle_neon (bitshuffle_neon src size elem_size) size elem_size = src
    ∧ bitunshuffle_neon (bshuf_trans_bit_elem_scal src size elem_size) size elem_size = src
    ∧ bshuf_untrans_bit_elem_scal (bitshuffle_neon src size elem_size) size elem_size = src
    ∧ bshuf_untrans_bit_elem_scal (bshuf_trans_bit_elem_scal src size elem_size) size elem_size
      = src := by
  have h8 : 8 ∣ size * (8 * elem_size) := ⟨size * elem_size, by ring⟩
  have hl : src.length = size * (8 * elem_size) / 8 := by
    rw [hlen, show size * (8 * elem_size) = 8 * (elem_size * size) by ring,
      Nat.mul_div_cancel_left _ (by norm_num : 0 < 8)]
  have h := bit_transpose_involution size (8 * elem_size) src h8 hl hbytes
  exact ⟨h, h, h, h⟩

/-- Witness of C17: seven elements of one byte. -/
theorem bitshuffle_roundtrip_pairings_witness :
    bitunshuffle_neon (bitshuffle_neon [1, 2, 3, 255, 0, 128, 7] 7 1) 7 1
      = [1, 2, 3, 255, 0, 128, 7]
    ∧ bshuf_trans_bit_elem_scal [1, 2, 3, 255, 0, 128, 7] 7 1 = [77, 39, 18, 129, 64, 32, 80] :=
  ⟨(bitshuffle_roundtrip_pairings [1, 2, 3, 255, 0, 128, 7] 7 1 (by decide) (by decide)).1,
    by decide⟩

end Blosc2
